import Mathlib

/-! # Lariat: a chain of fixed-capacity array nodes

A shallow embedding of `lariat.h` (class template `Lariat<T, Size>`).

* The C++ free store is an arena: a list of nodes, an `LNode*` is `Option Nat`
  (`none` is `nullptr`, `some a` is the node at position `a` of the arena).
  `new LNode` appends a node to the arena, so its address is the old length.
* `T values[Size]` is a list of `Size` slots; a slot is `none` until it has been
  assigned (a freshly allocated node has only unassigned slots).
* `int` fields and locals are `Int`; `/` and `%` truncate towards zero as in C++.
  Counts are taken to stay below the range of `int`, so no arithmetic overflows.
* An operation returns `Except Halt _`: `.ok` is a normal return, `.error` says why
  control did not return normally (an exception reaching the caller, or an
  access the language leaves undefined: a null or wild pointer, an array offset
  outside `[0, Size)`, a division by zero).
-/

/-- The enumeration `LariatException::LARIAT_EXCEPTION`. -/
inductive LARIAT_EXCEPTION where
  | E_NO_MEMORY
  | E_BAD_INDEX
  | E_DATA_ERROR
  deriving DecidableEq, Repr

/-- Ways in which a member function does not return normally. -/
inductive Halt where
  /-- a `LariatException` with the given code propagates to the caller -/
  | exception (code : LARIAT_EXCEPTION)
  /-- a null `LNode*` is dereferenced -/
  | nullDeref
  /-- a non-null `LNode*` that names no allocated node is dereferenced -/
  | wildPointer
  /-- the element `values[i]` is read or written with `i` outside `[0, Size)` -/
  | outOfRange
  /-- integer division or remainder by zero -/
  | divByZero
  deriving DecidableEq, Repr

/-- The struct `Lariat::LNode`. -/
structure LNode (T : Type) where
  next : Option Nat
  prev : Option Nat
  count : Int
  values : List (Option T)
  deriving DecidableEq, Repr

/-- The data members of `Lariat<T, Size>` together with the nodes it has allocated. -/
structure Lariat (T : Type) where
  heap : List (LNode T)
  head_ : Option Nat
  tail_ : Option Nat
  size_ : Int
  nodecount_ : Int
  asize_ : Int
  deriving DecidableEq, Repr

namespace Lariat

variable {T : Type}

/-- What `new LNode` yields: null links, count 0, `Size` unassigned slots. -/
def freshNode (Size : Nat) : LNode T :=
  { next := none, prev := none, count := 0, values := List.replicate Size none }

/-- Dereference `p`: the address and the node it names. -/
def deref (L : Lariat T) (p : Option Nat) : Except Halt (Nat × LNode T) :=
  match p with
  | none => .error .nullDeref
  | some a =>
    match L.heap[a]? with
    | none => .error .wildPointer
    | some n => .ok (a, n)

/-- Store `n` at address `a`. -/
def store (L : Lariat T) (a : Nat) (n : LNode T) : Lariat T :=
  { L with heap := L.heap.set a n }

/-- The rvalue `node->values[i]`. -/
def readValue (Size : Nat) (L : Lariat T) (node : Option Nat) (i : Int) :
    Except Halt (Option T) :=
  match deref L node with
  | .error e => .error e
  | .ok (_, n) =>
    if 0 ≤ i ∧ i < Size then .ok ((n.values[i.toNat]?).join) else .error .outOfRange

/-- The default constructor `Lariat()`. -/
def empty (Size : Nat) : Lariat T :=
  { heap := [], head_ := none, tail_ := none, size_ := 0, nodecount_ := 0, asize_ := Size }

/-- Member function `allocate()`: count the node and return the address of a new one. -/
def allocate (Size : Nat) (L : Lariat T) : Lariat T × Option Nat :=
  ({ L with nodecount_ := L.nodecount_ + 1, heap := L.heap ++ [freshNode Size] },
    some L.heap.length)

/-- Member function `add_value(node, ind, val)`. -/
def add_value (Size : Nat) (L : Lariat T) (node : Option Nat) (ind : Int) (val : Option T) :
    Except Halt (Lariat T) :=
  match deref L node with
  | .error e => .error e
  | .ok (a, n) =>
    if 0 ≤ ind ∧ ind < Size then
      .ok { store L a { n with values := n.values.set ind.toNat val, count := n.count + 1 } with
            size_ := L.size_ + 1 }
    else .error .outOfRange

/-- Member function `remove_value(node)`. -/
def remove_value (L : Lariat T) (node : Option Nat) : Except Halt (Lariat T) :=
  match deref L node with
  | .error e => .error e
  | .ok (a, n) => .ok { store L a { n with count := n.count - 1 } with size_ := L.size_ - 1 }

/-- Member function `kick_start()`. -/
def kick_start (Size : Nat) (L : Lariat T) : Lariat T :=
  let (L1, p) := allocate Size L
  { L1 with head_ := p, tail_ := p }

/-- The loop of `move_half_values` with `k` iterations left and loop variable `i`. -/
def move_half_values_loop (Size : Nat) (src dest : Option Nat) :
    Nat → Int → Lariat T → Except Halt (Lariat T)
  | 0, _, L => .ok L
  | k + 1, i, L =>
    match readValue Size L src (L.asize_ - Int.tdiv L.asize_ 2 + i) with
    | .error e => .error e
    | .ok x =>
      match add_value Size L dest i x with
      | .error e => .error e
      | .ok L1 =>
        match remove_value L1 src with
        | .error e => .error e
        | .ok L2 => move_half_values_loop Size src dest k (i + 1) L2

/-- Member function `move_half_values(src, dest)`: `i` runs over `0 .. asize_ / 2 - 1`; the
bound does not change during the loop, so there are exactly `asize_ / 2` iterations (none
if that is negative). -/
def move_half_values (Size : Nat) (L : Lariat T) (src dest : Option Nat) :
    Except Halt (Lariat T) :=
  move_half_values_loop Size src dest (Int.tdiv L.asize_ 2).toNat 0 L

/-- Member function `split(node)`: returns the state and the new node. -/
def split (Size : Nat) (L : Lariat T) (node : Option Nat) :
    Except Halt (Lariat T × Option Nat) :=
  match deref L node with
  | .error e => .error e
  | .ok (a, n) =>
    let tmp := n.next
    let (L1, newNode) := allocate Size L
    let L2 := store L1 a { n with next := newNode }
    match tmp with
    | none => .ok (L2, newNode)
    | some t =>
      match deref L2 newNode with
      | .error e => .error e
      | .ok (m, nn) =>
        let L3 := store L2 m { nn with next := some t }
        match deref L3 (some t) with
        | .error e => .error e
        | .ok (_, tn) => .ok (store L3 t { tn with prev := newNode }, newNode)

/-- The loop of `shift_up` with `k` iterations left and loop variable `i`:
`node->values[i + 1] = node->values[i]`. -/
def shift_up_loop (Size : Nat) (node : Option Nat) :
    Nat → Int → Lariat T → Except Halt (Lariat T)
  | 0, _, L => .ok L
  | k + 1, i, L =>
    match readValue Size L node i with
    | .error e => .error e
    | .ok x =>
      match deref L node with
      | .error e => .error e
      | .ok (a, n) =>
        if 0 ≤ i + 1 ∧ i + 1 < Size then
          shift_up_loop Size node k (i - 1)
            (store L a { n with values := n.values.set (i + 1).toNat x })
        else .error .outOfRange

/-- Member function `shift_up(node, ind)`: `i` runs from `node->count - 1` down to `ind`; the
loop does not change `count`, so there are exactly `count - ind` iterations (none if that
is negative). -/
def shift_up (Size : Nat) (L : Lariat T) (node : Option Nat) (ind : Int) :
    Except Halt (Lariat T) :=
  match deref L node with
  | .error e => .error e
  | .ok (_, n) => shift_up_loop Size node (n.count - ind).toNat (n.count - 1) L

/-- The loop of `find_node` with `k` iterations left: `res = res->next`. -/
def find_node_loop (L : Lariat T) : Nat → Option Nat → Except Halt (Option Nat)
  | 0, res => .ok res
  | k + 1, res =>
    match deref L res with
    | .error e => .error e
    | .ok (_, n) => find_node_loop L k n.next

/-- Member function `find_node(ind)`: follows `(ind - 1) / asize_` links from `head_`. -/
def find_node (L : Lariat T) (ind : Int) : Except Halt (Option Nat) :=
  if L.asize_ = 0 then .error .divByZero
  else find_node_loop L (Int.tdiv (ind - 1) L.asize_).toNat L.head_

/-- Member function `push_back(value)`. -/
def push_back (Size : Nat) (L : Lariat T) (value : T) : Except Halt (Lariat T) :=
  let afterBranch : Except Halt (Lariat T) :=
    if L.head_ = none ∧ L.tail_ = none then .ok (kick_start Size L)
    else
      match deref L L.tail_ with
      | .error e => .error e
      | .ok (_, t) =>
        if t.count = L.asize_ then
          match split Size L L.tail_ with
          | .error e => .error e
          | .ok (L1, newNode) =>
            let L2 := { L1 with tail_ := newNode }
            match deref L2 L2.tail_ with
            | .error e => .error e
            | .ok (_, tn) => move_half_values Size L2 tn.prev L2.tail_
        else .ok L
  match afterBranch with
  | .error e => .error e
  | .ok L3 =>
    match deref L3 L3.tail_ with
    | .error e => .error e
    | .ok (_, tn) => add_value Size L3 L3.tail_ tn.count (some value)

/-- Member function `push_front(value)`. -/
def push_front (Size : Nat) (L : Lariat T) (value : T) : Except Halt (Lariat T) :=
  let afterBranch : Except Halt (Lariat T) :=
    if L.head_ = none ∧ L.tail_ = none then .ok (kick_start Size L)
    else
      match deref L L.head_ with
      | .error e => .error e
      | .ok (_, h) =>
        if h.count = L.asize_ then
          match split Size L L.head_ with
          | .error e => .error e
          | .ok (L1, tmp) =>
            match move_half_values Size L1 L1.head_ tmp with
            | .error e => .error e
            | .ok L2 =>
              match shift_up Size L2 L2.head_ 0 with
              | .error e => .error e
              | .ok L3 => .ok (if L3.head_ = L3.tail_ then { L3 with tail_ := tmp } else L3)
        else if h.count < L.asize_ then shift_up Size L L.head_ 0
        else .ok L
  match afterBranch with
  | .error e => .error e
  | .ok L4 => add_value Size L4 L4.head_ 0 (some value)

/-- Member function `insert(index, value)`. In the first branch the source constructs a
`LariatException` temporary and discards it (there is no `throw`), after which the
function returns. -/
def insert (Size : Nat) (L : Lariat T) (index : Int) (value : T) : Except Halt (Lariat T) :=
  if index < 0 ∨ index > L.size_ then .ok L
  else if index = L.size_ then push_back Size L value
  else if index = 0 then push_front Size L value
  else
    match find_node L index with
    | .error e => .error e
    | .ok localNode =>
      if L.asize_ = 0 then .error .divByZero
      else
        let localInd := Int.tmod (index - 1) L.asize_
        match deref L localNode with
        | .error e => .error e
        | .ok (_, ln) =>
          let afterSplit : Except Halt (Lariat T) :=
            if ln.count = L.asize_ then
              match split Size L localNode with
              | .error e => .error e
              | .ok (L1, newNode) =>
                match deref L1 localNode with
                | .error e => .error e
                | .ok (_, ln1) =>
                  match readValue Size L1 localNode ln1.count with
                  | .error e => .error e
                  | .ok x =>
                    match add_value Size L1 newNode 0 x with
                    | .error e => .error e
                    | .ok L2 => remove_value L2 localNode
            else .ok L
          match afterSplit with
          | .error e => .error e
          | .ok L3 =>
            match shift_up Size L3 localNode localInd with
            | .error e => .error e
            | .ok L4 => add_value Size L4 localNode localInd (some value)

/-- Member function `size()`: the body is `return 0;`. -/
def size (_L : Lariat T) : Nat := 0

/-- The nodes met by following `next` from `p`, at most `fuel` of them. -/
def walk (heap : List (LNode T)) : Nat → Option Nat → List (LNode T)
  | 0, _ => []
  | fuel + 1, p =>
    match p with
    | none => []
    | some a =>
      match heap[a]? with
      | none => []
      | some n => n :: walk heap fuel n.next

/-- The nodes of the chain in chain order. A chain without a cycle has at most
`heap.length` nodes, so that many steps reach its end. -/
def nodes (L : Lariat T) : List (LNode T) := walk L.heap L.heap.length L.head_

/-- The valid elements of one node: `values[0 .. count)`. -/
def LNode.items (n : LNode T) : List (Option T) := n.values.take n.count.toNat

/-- The logical sequence: the valid elements of every node, in chain order. -/
def toList (L : Lariat T) : List (Option T) := (nodes L).flatMap (fun n => LNode.items n)

/-- Sum of `count` over the chain. -/
def countSum (L : Lariat T) : Int := ((nodes L).map (fun n => n.count)).sum

/-- Successive calls `push_back(v0)`, `push_back(v1)`, ... ; the first call that does not
return normally ends the run. -/
def push_back_all (Size : Nat) : Lariat T → List T → Except Halt (Lariat T)
  | L, [] => .ok L
  | L, v :: vs =>
    match push_back Size L v with
    | .error e => .error e
    | .ok L1 => push_back_all Size L1 vs

/-- The array `vs` after the `k` remaining iterations of the loop of `shift_up` that start
with loop variable `i`. -/
def shiftVals (vs : List (Option T)) : Nat → Int → List (Option T)
  | 0, _ => vs
  | k + 1, i => shiftVals (vs.set (i + 1).toNat (vs[i.toNat]?).join) k (i - 1)

/-- The array `dst` after the `k` remaining iterations of the loop of `move_half_values`
that start with loop variable `i`, reading from the array `src`. -/
def moveVals (Size : Nat) (src dst : List (Option T)) : Nat → Nat → List (Option T)
  | 0, _ => dst
  | k + 1, i => moveVals Size src (dst.set i (src[Size - Size / 2 + i]?).join) k (i + 1)

/-- Member function `erase(index)`: the body is empty. -/
def erase (L : Lariat T) (_index : Int) : Lariat T := L

/-- Member function `find(value)`: the body is `return 0;`. -/
def find (_L : Lariat T) (_value : T) : Nat := 0

/-- Member function `compact()`: the body is empty. -/
def compact (L : Lariat T) : Lariat T := L

/-- The copy constructor `Lariat(Lariat const& rhs)`: it initialises `head_` and `tail_`
with null and nothing else. `size_`, `nodecount_` and `asize_` are left with indeterminate
values, given here as parameters. The new object has allocated no node. -/
def copy (size0 nodecount0 asize0 : Int) (_rhs : Lariat T) : Lariat T :=
  { heap := [], head_ := none, tail_ := none,
    size_ := size0, nodecount_ := nodecount0, asize_ := asize0 }

/-- Successive calls `push_front(v0)`, `push_front(v1)`, ... ; the first call that does not
return normally ends the run. -/
def push_front_all (Size : Nat) : Lariat T → List T → Except Halt (Lariat T)
  | L, [] => .ok L
  | L, v :: vs =>
    match push_front Size L v with
    | .error e => .error e
    | .ok L1 => push_front_all Size L1 vs

/-- Splitting a node the way `push_front` does: `split(node)` followed by
`move_half_values(node, newNode)`. Returns the state and the new node. -/
def split_then_move (Size : Nat) (L : Lariat T) (node : Option Nat) :
    Except Halt (Lariat T × Option Nat) :=
  match split Size L node with
  | .error e => .error e
  | .ok (L1, newNode) =>
    match move_half_values Size L1 node newNode with
    | .error e => .error e
    | .ok L2 => .ok (L2, newNode)

/-- The addresses met by following `next` from `p`, at most `fuel` of them. -/
def walkAddrs (heap : List (LNode T)) : Nat → Option Nat → List Nat
  | 0, _ => []
  | fuel + 1, p =>
    match p with
    | none => []
    | some a =>
      match heap[a]? with
      | none => []
      | some n => a :: walkAddrs heap fuel n.next

/-- The addresses of the nodes of the chain in chain order. -/
def addrs (L : Lariat T) : List Nat := walkAddrs L.heap L.heap.length L.head_

/-- A container of capacity 2 whose single node is full: the sequence 1, 2. -/
def fullOne : Lariat Nat :=
  { heap := [{ next := none, prev := none, count := 2, values := [some 1, some 2] }],
    head_ := some 0, tail_ := some 0, size_ := 2, nodecount_ := 1, asize_ := 2 }

/-- A container of capacity 4 whose single node has room: the sequence 1, 2, 3. -/
def roomOne : Lariat Nat :=
  { heap := [{ next := none, prev := none, count := 3,
               values := [some 1, some 2, some 3, none] }],
    head_ := some 0, tail_ := some 0, size_ := 3, nodecount_ := 1, asize_ := 4 }

/-- A container of capacity 3 whose single node is full: the sequence 1, 2, 3. -/
def fullThree : Lariat Nat :=
  { heap := [{ next := none, prev := none, count := 3, values := [some 1, some 2, some 3] }],
    head_ := some 0, tail_ := some 0, size_ := 3, nodecount_ := 1, asize_ := 3 }

/-- A container of capacity 4 with two nodes of unequal counts, the sequence 5, 4, 3, 2, 1:
what `push_front(1)`, ..., `push_front(5)` make of a fresh container. -/
def twoNodes : Lariat Nat :=
  { heap := [{ next := some 1, prev := none, count := 3,
               values := [some 5, some 4, some 3, some 1] },
             { next := none, prev := none, count := 2,
               values := [some 2, some 1, none, none] }],
    head_ := some 0, tail_ := some 1, size_ := 5, nodecount_ := 2, asize_ := 4 }

/-- A container of capacity 2 with four nodes of unequal counts, the sequence 5, 4, 3, 2, 1:
what `push_front(1)`, ..., `push_front(5)` make of a fresh container. The chain visits the
addresses 0, 3, 2, 1. -/
def fourNodes : Lariat Nat :=
  { heap := [{ next := some 3, prev := none, count := 2, values := [some 5, some 4] },
             { next := none, prev := some 2, count := 1, values := [some 1, none] },
             { next := some 1, prev := some 3, count := 1, values := [some 2, none] },
             { next := some 2, prev := none, count := 1, values := [some 3, none] }],
    head_ := some 0, tail_ := some 1, size_ := 5, nodecount_ := 4, asize_ := 2 }

/-! ## The data-model invariants -/

/-- Following `next` from `p` visits exactly the addresses `c`, in this order, and then
reaches null. -/
def Linked (heap : List (LNode T)) : Option Nat → List Nat → Prop
  | p, [] => p = none
  | p, a :: c => p = some a ∧ ∃ n, heap[a]? = some n ∧ Linked heap n.next c

/-- The count of the node at address `a` (0 if there is none). -/
def countAt (heap : List (LNode T)) (a : Nat) : Int :=
  match heap[a]? with
  | some n => n.count
  | none => 0

/-- The valid elements of the node at address `a`. -/
def itemsAt (heap : List (LNode T)) (a : Nat) : List (Option T) :=
  match heap[a]? with
  | some n => LNode.items n
  | none => []

/-- The locator as the spec words it (4.1): walk the chain from the head, accumulating the
counts of the nodes already visited; stop at the node whose range
`[cumulative, cumulative + count)` contains `i`; the local offset is `i - cumulative`.
Here `i` is what is left of the index after the counts of the visited nodes are taken off. -/
def locateIn (heap : List (LNode T)) : List Nat → Int → Option (Nat × Int)
  | [], _ => none
  | a :: c, i => if i < countAt heap a then some (a, i) else locateIn heap c (i - countAt heap a)

/-- The spec's locator on a container: the node holding logical position `i` and the offset
of that position in the node. -/
def locate (L : Lariat T) (i : Int) : Option (Nat × Int) :=
  if i < 0 then none else locateIn L.heap (addrs L) i

/-- The data-model invariants of a container with per-node capacity `Size` whose chain
consists of the nodes at addresses `c`:
the chain runs from `head_` to null without a cycle, `tail_` is its last node (null when
it is empty), every node holds between 1 and `Size` elements in an array of `Size`
slots, `size_` is the sum of the counts, and `asize_` is `Size`. -/
structure Inv (Size : Nat) (L : Lariat T) (c : List Nat) : Prop where
  linked : Linked L.heap L.head_ c
  nodup : c.Nodup
  tail : L.tail_ = c.getLast?
  occ : ∀ a ∈ c, ∃ n, L.heap[a]? = some n ∧ 1 ≤ n.count ∧ n.count ≤ Size ∧
    n.values.length = Size
  total : L.size_ = (c.map (countAt L.heap)).sum
  asize : L.asize_ = Size

/-- A container satisfies the data-model invariants. -/
def WellFormed (Size : Nat) (L : Lariat T) : Prop := ∃ c, Inv Size L c

/-- The containers a program can build with the inserting operations: the freshly
constructed one, and what a completed call of `push_back`, `push_front` or `insert` makes
of such a container. -/
inductive Reachable (Size : Nat) : Lariat T → Prop
  | fresh : Reachable Size (empty Size)
  | by_push_back {L L2 : Lariat T} (v : T) :
      Reachable Size L → push_back Size L v = .ok L2 → Reachable Size L2
  | by_push_front {L L2 : Lariat T} (v : T) :
      Reachable Size L → push_front Size L v = .ok L2 → Reachable Size L2
  | by_insert {L L2 : Lariat T} (index : Int) (v : T) :
      Reachable Size L → insert Size L index v = .ok L2 → Reachable Size L2

end Lariat

/-! ## Chains and the logical sequence -/

namespace Lariat
variable {T : Type}

theorem Linked.lookup {heap : List (LNode T)} : ∀ {c : List Nat} {p : Option Nat},
    Linked heap p c → ∀ a ∈ c, ∃ n, heap[a]? = some n
  | [], _, _, a, ha => by simp at ha
  | b :: c, p, h, a, ha => by
    obtain ⟨_, n, hn, hl⟩ := h
    rcases List.mem_cons.1 ha with rfl | ha
    · exact ⟨n, hn⟩
    · exact Linked.lookup hl a ha

theorem Linked.lt_length {heap : List (LNode T)} {c : List Nat} {p : Option Nat}
    (h : Linked heap p c) (a : Nat) (ha : a ∈ c) : a < heap.length := by
  obtain ⟨n, hn⟩ := h.lookup a ha
  exact (List.getElem?_eq_some.1 hn).1

/-- A chain is unaffected by changes of the arena that keep the `next` link of its nodes. -/
theorem Linked.congr {heap heap2 : List (LNode T)} : ∀ {c : List Nat} {p : Option Nat},
    Linked heap p c →
    (∀ a ∈ c, ∀ n, heap[a]? = some n → ∃ n2, heap2[a]? = some n2 ∧ n2.next = n.next) →
    Linked heap2 p c
  | [], _, h, _ => h
  | b :: c, p, h, hc => by
    obtain ⟨hp, n, hn, hl⟩ := h
    obtain ⟨n2, hn2, hnext⟩ := hc b (List.mem_cons_self _ _) n hn
    refine ⟨hp, n2, hn2, ?_⟩
    rw [hnext]
    exact Linked.congr hl (fun a ha => hc a (List.mem_cons_of_mem _ ha))

theorem length_le_of_nodup_lt : ∀ (c : List Nat) (n : Nat), c.Nodup → (∀ a ∈ c, a < n) →
    c.length ≤ n := by
  intro c n hnd hlt
  have hsub : c ⊆ List.range n := fun a ha => List.mem_range.2 (hlt a ha)
  have := (List.subperm_of_subset hnd hsub).length_le
  simpa using this

theorem walk_of_linked {heap : List (LNode T)} : ∀ {c : List Nat} {p : Option Nat} (fuel : Nat),
    Linked heap p c → c.length ≤ fuel → walk heap fuel p = c.filterMap (fun a => heap[a]?)
  | [], p, fuel, h, _ => by
    have hp : p = none := h
    subst hp
    cases fuel <;> simp [walk]
  | b :: c, p, fuel, h, hf => by
    obtain ⟨hp, n, hn, hl⟩ := h
    subst hp
    cases fuel with
    | zero => simp at hf
    | succ fuel =>
      have := walk_of_linked fuel hl (by simpa using hf)
      simp [walk, hn, this]

theorem nodes_of_inv {Size : Nat} {L : Lariat T} {c : List Nat} (h : Inv Size L c) :
    nodes L = c.filterMap (fun a => L.heap[a]?) :=
  walk_of_linked _ h.linked (length_le_of_nodup_lt c _ h.nodup h.linked.lt_length)

theorem flatMap_filterMap_lookup (heap : List (LNode T)) (c : List Nat) :
    (c.filterMap (fun a => heap[a]?)).flatMap (fun n => LNode.items n) =
      c.flatMap (itemsAt heap) := by
  induction c with
  | nil => simp
  | cons a c ih =>
    cases hn : heap[a]? with
    | none => simp [List.filterMap_cons, hn, itemsAt, ih]
    | some n => simp [List.filterMap_cons, hn, itemsAt, ih]

theorem sum_filterMap_lookup (heap : List (LNode T)) (c : List Nat) :
    ((c.filterMap (fun a => heap[a]?)).map (fun n => n.count)).sum =
      (c.map (countAt heap)).sum := by
  induction c with
  | nil => simp
  | cons a c ih =>
    cases hn : heap[a]? with
    | none => simp [List.filterMap_cons, hn, countAt, ih]
    | some n => simp [List.filterMap_cons, hn, countAt, ih]

theorem toList_of_inv {Size : Nat} {L : Lariat T} {c : List Nat} (h : Inv Size L c) :
    toList L = c.flatMap (itemsAt L.heap) := by
  rw [toList, nodes_of_inv h, flatMap_filterMap_lookup]

theorem countSum_of_inv {Size : Nat} {L : Lariat T} {c : List Nat} (h : Inv Size L c) :
    countSum L = (c.map (countAt L.heap)).sum := by
  rw [countSum, nodes_of_inv h, sum_filterMap_lookup]

/-! ## Single nodes: dereferencing, storing and the loop of `shift_up` -/

theorem deref_of_lookup {L : Lariat T} {a : Nat} {n : LNode T} (h : L.heap[a]? = some n) :
    deref L (some a) = .ok (a, n) := by
  simp [deref, h]

theorem store_lookup {L : Lariat T} {a : Nat} {n0 : LNode T} (h : L.heap[a]? = some n0)
    (n : LNode T) (x : Nat) :
    (store L a n).heap[x]? = if x = a then some n else L.heap[x]? := by
  have hlt : a < L.heap.length := (List.getElem?_eq_some.1 h).1
  by_cases hx : x = a
  · subst hx
    simp [store, hlt]
  · have : a ≠ x := fun e => hx e.symm
    simp [store, hx, List.getElem?_set_ne this]

theorem store_store (L : Lariat T) (a : Nat) (n1 n2 : LNode T) :
    store (store L a n1) a n2 = store L a n2 := by
  simp [store, List.set_set]

theorem set_lookup_self {α : Type} {l : List α} {a : Nat} {n : α} (h : l[a]? = some n) :
    l.set a n = l := by
  apply List.ext_getElem?
  intro x
  rw [List.getElem?_set]
  split_ifs with h1 h2
  · subst h1; exact h.symm
  · have := (List.getElem?_eq_some.1 h).1
    omega
  · rfl

theorem store_self {L : Lariat T} {a : Nat} {n : LNode T} (h : L.heap[a]? = some n) :
    store L a n = L := by
  cases L
  simp only [store] at *
  rw [set_lookup_self h]

theorem readValue_of_lookup {Size : Nat} {L : Lariat T} {a : Nat} {n : LNode T}
    (h : L.heap[a]? = some n) (i : Int) :
    readValue Size L (some a) i =
      if 0 ≤ i ∧ i < Size then .ok ((n.values[i.toNat]?).join) else .error .outOfRange := by
  simp [readValue, deref_of_lookup h]

/-- The loop of `shift_up` on an allocated node: it completes exactly when every offset it
touches is inside the array, and then only the array of that node has changed. -/
theorem shift_up_loop_eq (Size a : Nat) : ∀ (k : Nat) (i : Int) (L : Lariat T) (n : LNode T),
    L.heap[a]? = some n →
    shift_up_loop Size (some a) k i L =
      if k = 0 ∨ (0 ≤ i - k + 1 ∧ i + 1 < Size) then
        .ok (store L a { n with values := shiftVals n.values k i })
      else .error .outOfRange
  | 0, i, L, n, h => by
    simp [shift_up_loop, shiftVals, store_self h]
  | k + 1, i, L, n, h => by
    rw [shift_up_loop, readValue_of_lookup h, deref_of_lookup h]
    by_cases h1 : 0 ≤ i ∧ i < (Size : Int)
    · rw [if_pos h1]
      dsimp only
      by_cases h2 : 0 ≤ i + 1 ∧ i + 1 < (Size : Int)
      · rw [if_pos h2]
        have hl := store_lookup h
          { n with values := n.values.set (i + 1).toNat (n.values[i.toNat]?).join } a
        rw [if_pos rfl] at hl
        rw [shift_up_loop_eq Size a k (i - 1) _ _ hl, store_store]
        by_cases h3 : k = 0 ∨ (0 ≤ i - 1 - (k : Int) + 1 ∧ i - 1 + 1 < (Size : Int))
        · have h4 : (k + 1 = 0) ∨
              (0 ≤ i - ((k + 1 : Nat) : Int) + 1 ∧ i + 1 < (Size : Int)) := by
            right; omega
          rw [if_pos h3, if_pos h4]
          simp [shiftVals]
        · have h4 : ¬ ((k + 1 = 0) ∨
              (0 ≤ i - ((k + 1 : Nat) : Int) + 1 ∧ i + 1 < (Size : Int))) := by
            rintro (h5 | ⟨h5, h6⟩) <;> omega
          rw [if_neg h3, if_neg h4]
      · have h4 : ¬ ((k + 1 = 0) ∨
            (0 ≤ i - ((k + 1 : Nat) : Int) + 1 ∧ i + 1 < (Size : Int))) := by
          rintro (h5 | ⟨h5, h6⟩) <;> omega
        rw [if_neg h2, if_neg h4]
    · have h4 : ¬ ((k + 1 = 0) ∨
          (0 ≤ i - ((k + 1 : Nat) : Int) + 1 ∧ i + 1 < (Size : Int))) := by
        rintro (h5 | ⟨h5, h6⟩) <;> omega
      rw [if_neg h1, if_neg h4]

theorem shiftVals_length : ∀ (k : Nat) (i : Int) (vs : List (Option T)),
    (shiftVals vs k i).length = vs.length
  | 0, _, _ => rfl
  | k + 1, i, vs => by
    rw [shiftVals, shiftVals_length k]; simp

/-- Contents of the array after the loop of `shift_up`: the slots `lo + 1 .. lo + k` hold what
the slots `lo .. lo + k - 1` held, every other slot is unchanged. -/
theorem shiftVals_getElem? (lo : Nat) : ∀ (k : Nat) (i : Int) (vs : List (Option T)) (j : Nat),
    i + 1 = lo + k → lo + k < vs.length →
    (shiftVals vs k i)[j]? = if lo < j ∧ j ≤ lo + k then vs[j - 1]? else vs[j]?
  | 0, i, vs, j, _, _ => by
    have : ¬ (lo < j ∧ j ≤ lo + 0) := by omega
    rw [shiftVals, if_neg this]
  | k + 1, i, vs, j, hi, hlen => by
    have e1 : (i + 1).toNat = lo + k + 1 := by omega
    have e2 : i.toNat = lo + k := by omega
    have hx : vs[lo + k]? = some vs[lo + k] := List.getElem?_eq_getElem (by omega)
    rw [shiftVals, e1, e2, hx]
    rw [shiftVals_getElem? lo k (i - 1) _ j (by omega) (by simp; omega)]
    simp only [Option.join, List.getElem?_set]
    by_cases hj : j = lo + k + 1
    · subst hj
      have h1 : ¬ (lo < lo + k + 1 ∧ lo + k + 1 ≤ lo + k) := by omega
      have h2 : lo < lo + k + 1 ∧ lo + k + 1 ≤ lo + (k + 1) := by omega
      have h3 : lo + k + 1 < vs.length := by omega
      rw [if_neg h1, if_pos h2, if_pos rfl, if_pos h3]
      simp [hx]
    · by_cases hin : lo < j ∧ j ≤ lo + k
      · have h2 : lo < j ∧ j ≤ lo + (k + 1) := by omega
        have h3 : ¬ (lo + k + 1 = j - 1) := by omega
        rw [if_pos hin, if_pos h2, if_neg h3]
      · have h2 : ¬ (lo < j ∧ j ≤ lo + (k + 1)) := by omega
        have h3 : ¬ (lo + k + 1 = j) := by omega
        rw [if_neg hin, if_neg h2, if_neg h3]

/-- Shifting a whole run of `cnt` elements up from offset 0 and writing `v` at offset 0 puts
`v` in front of the run. -/
theorem shiftVals_head (vs : List (Option T)) (cnt : Nat) (h : cnt < vs.length) (v : Option T) :
    ((shiftVals vs cnt ((cnt : Int) - 1)).set 0 v).take (cnt + 1) = v :: vs.take cnt := by
  apply List.ext_getElem?
  intro j
  rw [List.getElem?_take, List.getElem?_set, shiftVals_length,
    shiftVals_getElem? 0 cnt _ vs j (by omega) (by omega)]
  cases j with
  | zero =>
    have : 0 < vs.length := by omega
    simp [this]
  | succ j =>
    rw [List.getElem?_cons_succ, List.getElem?_take]
    by_cases hj : j < cnt
    · have h1 : j + 1 < cnt + 1 := by omega
      have h2 : 0 < j + 1 ∧ j + 1 ≤ 0 + cnt := by omega
      rw [if_pos h1, if_neg (by omega), if_pos h2, if_pos hj]
      simp
    · have h1 : ¬ (j + 1 < cnt + 1) := by omega
      rw [if_neg h1, if_neg hj]

/-! ## The loop of `move_half_values` -/

theorem tdiv_two (Size : Nat) : Int.tdiv (Size : Int) 2 = ((Size / 2 : Nat) : Int) := by
  rw [Int.tdiv_eq_ediv (by omega) (by omega)]
  omega

theorem add_value_of_lookup {Size : Nat} {L : Lariat T} {a : Nat} {n : LNode T}
    (h : L.heap[a]? = some n) (ind : Int) (val : Option T) (hi : 0 ≤ ind ∧ ind < Size) :
    add_value Size L (some a) ind val =
      .ok { L with
        heap := L.heap.set a { n with
            values := n.values.set ind.toNat val, count := n.count + 1 },
        size_ := L.size_ + 1 } := by
  simp [add_value, deref_of_lookup h, hi, store]

theorem remove_value_of_lookup {L : Lariat T} {a : Nat} {n : LNode T}
    (h : L.heap[a]? = some n) :
    remove_value L (some a) =
      .ok { L with
        heap := L.heap.set a { n with count := n.count - 1 },
        size_ := L.size_ - 1 } := by
  simp [remove_value, deref_of_lookup h, store]

theorem set_lookup {α : Type} {l : List α} {a : Nat} {n0 : α} (h : l[a]? = some n0)
    (n : α) (x : Nat) : (l.set a n)[x]? = if x = a then some n else l[x]? := by
  have hlt : a < l.length := (List.getElem?_eq_some.1 h).1
  rw [List.getElem?_set]
  by_cases hx : x = a
  · subst hx
    simp [hlt]
  · have : a ≠ x := fun e => hx e.symm
    simp [hx, this]

theorem set_set_set_set {α : Type} (l : List α) (a b : Nat) (d1 n1 d2 n2 : α) :
    (((l.set b d1).set a n1).set b d2).set a n2 = (l.set b d2).set a n2 := by
  apply List.ext_getElem?
  intro x
  simp only [List.getElem?_set, List.length_set]
  by_cases hxa : a = x
  · simp [hxa]
  · by_cases hxb : b = x
    · simp [hxa, hxb]
    · simp [hxa, hxb]

/-- The loop of `move_half_values` between two different allocated nodes, while the offsets
stay inside the upper half: `k` elements move, `size_` is unchanged. -/
theorem move_half_values_loop_eq (Size a b : Nat) (hab : a ≠ b) :
    ∀ (k i : Nat) (L : Lariat T) (n d : LNode T),
    L.asize_ = Size → L.heap[a]? = some n → L.heap[b]? = some d → i + k ≤ Size / 2 →
    move_half_values_loop Size (some a) (some b) k (i : Int) L =
      .ok { L with
        heap := (L.heap.set b { d with
            values := moveVals Size n.values d.values k i, count := d.count + k }).set a { n with
            count := n.count - k } }
  | 0, i, L, n, d, _, hn, hd, _ => by
    have e1 : ({ d with values := moveVals Size n.values d.values 0 i,
                        count := d.count + ((0 : Nat) : Int) } : LNode T) = d := by
      cases d; simp [moveVals]
    have e2 : ({ n with count := n.count - ((0 : Nat) : Int) } : LNode T) = n := by
      cases n; simp
    rw [move_half_values_loop, e1, e2, set_lookup_self hd, set_lookup_self hn]
  | k + 1, i, L, n, d, hs, hn, hd, hik => by
    have hidx : 0 ≤ L.asize_ - Int.tdiv L.asize_ 2 + (i : Int) ∧
        L.asize_ - Int.tdiv L.asize_ 2 + (i : Int) < (Size : Int) := by
      rw [hs, tdiv_two]; omega
    have htn : (L.asize_ - Int.tdiv L.asize_ 2 + (i : Int)).toNat = Size - Size / 2 + i := by
      rw [hs, tdiv_two]; omega
    have hi : 0 ≤ (i : Int) ∧ (i : Int) < (Size : Int) := by omega
    rw [move_half_values_loop, readValue_of_lookup hn, if_pos hidx]
    dsimp only
    rw [add_value_of_lookup hd _ _ hi]
    dsimp only
    have hn1 : (L.heap.set b { d with
        values := d.values.set (i : Int).toNat
          (n.values[(L.asize_ - Int.tdiv L.asize_ 2 + (i : Int)).toNat]?).join,
        count := d.count + 1 })[a]? = some n := by
      rw [set_lookup hd, if_neg hab, hn]
    rw [remove_value_of_lookup hn1]
    dsimp only
    have hb2 := set_lookup hn1 { n with count := n.count - 1 } b
    rw [if_neg (fun e => hab e.symm), set_lookup hd, if_pos rfl] at hb2
    have ha2 := set_lookup hn1 { n with count := n.count - 1 } a
    rw [if_pos rfl] at ha2
    have ih := move_half_values_loop_eq Size a b hab k (i + 1)
      ⟨_, L.head_, L.tail_, L.size_ + 1 - 1, L.nodecount_, L.asize_⟩ _ _ hs ha2 hb2 (by omega)
    dsimp only at ih
    rw [Nat.cast_add, Nat.cast_one] at ih
    rw [ih]
    rw [set_set_set_set]
    have e3 : d.count + 1 + (k : Int) = d.count + ((k + 1 : Nat) : Int) := by
      push_cast; omega
    have e4 : n.count - 1 - (k : Int) = n.count - ((k + 1 : Nat) : Int) := by
      push_cast; omega
    have e5 : (L.size_ + 1 - 1) = L.size_ := by omega
    rw [e3, e4, e5, htn, Int.toNat_ofNat]
    rfl

theorem moveVals_length (Size : Nat) (src : List (Option T)) :
    ∀ (k i : Nat) (dst : List (Option T)), (moveVals Size src dst k i).length = dst.length
  | 0, _, _ => rfl
  | k + 1, i, dst => by
    rw [moveVals, moveVals_length Size src k]; simp

/-- Contents of the destination array after the loop of `move_half_values`: slot `j` of the
slots `i .. i + k - 1` holds what slot `Size - Size / 2 + j` of the source holds. -/
theorem moveVals_getElem? (Size : Nat) (src : List (Option T)) :
    ∀ (k i : Nat) (dst : List (Option T)) (j : Nat), i + k ≤ dst.length →
    (moveVals Size src dst k i)[j]? =
      if i ≤ j ∧ j < i + k then some (src[Size - Size / 2 + j]?).join else dst[j]?
  | 0, i, dst, j, _ => by
    have : ¬ (i ≤ j ∧ j < i + 0) := by omega
    rw [moveVals, if_neg this]
  | k + 1, i, dst, j, h => by
    rw [moveVals, moveVals_getElem? Size src k (i + 1) _ j (by simp; omega),
      List.getElem?_set]
    by_cases hj : j = i
    · subst hj
      have h1 : ¬ (j + 1 ≤ j ∧ j < j + 1 + k) := by omega
      have h2 : j ≤ j ∧ j < j + (k + 1) := by omega
      have h3 : j < dst.length := by omega
      rw [if_neg h1, if_pos rfl, if_pos h3, if_pos h2]
    · by_cases hin : i + 1 ≤ j ∧ j < i + 1 + k
      · have h2 : i ≤ j ∧ j < i + (k + 1) := by omega
        rw [if_pos hin, if_pos h2]
      · have h2 : ¬ (i ≤ j ∧ j < i + (k + 1)) := by omega
        have h3 : ¬ (i = j) := fun e => hj e.symm
        rw [if_neg hin, if_neg h2, if_neg h3]

/-- The new node receives the upper run of the source array, in order. -/
theorem moveVals_take (Size : Nat) (src dst : List (Option T)) (hs : src.length = Size)
    (hd : dst.length = Size) :
    (moveVals Size src dst (Size / 2) 0).take (Size / 2) = src.drop (Size - Size / 2) := by
  apply List.ext_getElem?
  intro j
  rw [List.getElem?_take, moveVals_getElem? Size src _ 0 dst j (by omega), List.getElem?_drop]
  by_cases hj : j < Size / 2
  · have h2 : 0 ≤ j ∧ j < 0 + Size / 2 := by omega
    have h3 : Size - Size / 2 + j < src.length := by omega
    rw [if_pos hj, if_pos h2, List.getElem?_eq_getElem h3]
    rfl
  · have h3 : src.length ≤ Size - Size / 2 + j := by omega
    rw [if_neg hj, List.getElem?_eq_none h3]

/-! ## `split` -/

theorem split_of_last (Size : Nat) {L : Lariat T} {a : Nat} {n : LNode T}
    (hn : L.heap[a]? = some n) (hnext : n.next = none) :
    split Size L (some a) = .ok ({ L with
      nodecount_ := L.nodecount_ + 1,
      heap := (L.heap ++ [freshNode Size]).set a { n with next := some L.heap.length } },
      some L.heap.length) := by
  simp [split, deref_of_lookup hn, allocate, hnext, store]

theorem split_of_inner (Size : Nat) {L : Lariat T} {a t : Nat} {n tn : LNode T}
    (hn : L.heap[a]? = some n) (hnext : n.next = some t) (hta : t ≠ a)
    (htn : L.heap[t]? = some tn) :
    split Size L (some a) = .ok ({ L with
      nodecount_ := L.nodecount_ + 1,
      heap := (((L.heap ++ [freshNode Size]).set a { n with next := some L.heap.length }).set
        L.heap.length { freshNode Size with next := some t }).set
        t { tn with prev := some L.heap.length } },
      some L.heap.length) := by
  have hlt : a < L.heap.length := (List.getElem?_eq_some.1 hn).1
  have htlt : t < L.heap.length := (List.getElem?_eq_some.1 htn).1
  have h1 : ((L.heap ++ [freshNode Size]).set a
      { n with next := some L.heap.length })[L.heap.length]? = some (freshNode Size) := by
    rw [List.getElem?_set, if_neg (by omega)]
    simp
  have h2 : (((L.heap ++ [freshNode Size]).set a { n with next := some L.heap.length }).set
      L.heap.length { freshNode Size with next := some t })[t]? = some tn := by
    rw [List.getElem?_set, if_neg (by omega), List.getElem?_set, if_neg (fun e => hta e.symm),
      List.getElem?_append_left htlt, htn]
  simp only [split, deref, hn, allocate, hnext, store, h1, h2]

/-- What `split` does to the arena and the counters when `node` is allocated and its
successor, if it has one, is another allocated node: the new node is appended to the arena
and takes over the successor, `node` points to it, the successor points back to it; no
count and no array changes, and only `nodecount_` changes among the counters. -/
theorem split_spec (Size : Nat) {L : Lariat T} {a : Nat} {n : LNode T}
    (hn : L.heap[a]? = some n)
    (ht : ∀ t, n.next = some t → t ≠ a ∧ ∃ tn, L.heap[t]? = some tn) :
    ∃ L1, split Size L (some a) = .ok (L1, some L.heap.length) ∧
      L1.heap.length = L.heap.length + 1 ∧
      L1.heap[a]? = some { n with next := some L.heap.length } ∧
      L1.heap[L.heap.length]? = some { freshNode Size with next := n.next } ∧
      (∀ x, x ≠ a → x ≠ L.heap.length →
        L1.heap[x]? = (L.heap[x]?).map (fun nd =>
          { nd with prev := if n.next = some x then some L.heap.length else nd.prev })) ∧
      L1.head_ = L.head_ ∧ L1.tail_ = L.tail_ ∧ L1.size_ = L.size_ ∧
      L1.nodecount_ = L.nodecount_ + 1 ∧ L1.asize_ = L.asize_ := by
  have hlt : a < L.heap.length := (List.getElem?_eq_some.1 hn).1
  have hne : a ≠ L.heap.length := by omega
  obtain hnext | ⟨t, hnext⟩ : n.next = none ∨ ∃ t, n.next = some t := by
    cases n.next <;> simp
  · refine ⟨_, split_of_last Size hn hnext, ?_, ?_, ?_, ?_, rfl, rfl, rfl, rfl, rfl⟩
    · simp
    · dsimp only
      rw [List.getElem?_set, if_pos rfl, if_pos (by simp; omega)]
    · dsimp only
      rw [List.getElem?_set, if_neg hne, hnext]
      simp [freshNode]
    · intro x hxa hxl
      have h1 : ¬ (a = x) := fun e => hxa e.symm
      dsimp only
      rw [List.getElem?_set, if_neg h1, List.getElem?_append, hnext]
      by_cases hx : x < L.heap.length
      · rw [if_pos hx]
        cases hnd : L.heap[x]? with
        | none => rfl
        | some nd => simp
      · rw [if_neg hx, List.getElem?_eq_none (l := L.heap) (by omega)]
        simp
        omega
  · obtain ⟨hta, tn, htn⟩ := ht t hnext
    have htlt : t < L.heap.length := (List.getElem?_eq_some.1 htn).1
    refine ⟨_, split_of_inner Size hn hnext hta htn, ?_, ?_, ?_, ?_, rfl, rfl, rfl, rfl, rfl⟩
    · simp
    · have h1 : ¬ (t = a) := hta
      have h2 : ¬ (L.heap.length = a) := by omega
      dsimp only
      rw [List.getElem?_set, if_neg h1, List.getElem?_set, if_neg h2, List.getElem?_set,
        if_pos rfl, if_pos (by simp; omega)]
    · have h1 : ¬ (t = L.heap.length) := by omega
      dsimp only
      rw [List.getElem?_set, if_neg h1, List.getElem?_set, if_pos rfl,
        if_pos (by simp), hnext]
    · intro x hxa hxl
      have h1 : ¬ (a = x) := fun e => hxa e.symm
      have h2 : ¬ (L.heap.length = x) := fun e => hxl e.symm
      dsimp only
      rw [List.getElem?_set, List.getElem?_set, if_neg h2, List.getElem?_set, if_neg h1,
        List.getElem?_append, hnext]
      by_cases hxt : t = x
      · subst hxt
        have h3 : t < (((L.heap ++ [freshNode Size]).set a
            { n with next := some L.heap.length }).set L.heap.length
            { freshNode Size with next := some t }).length := by
          simp; omega
        rw [if_pos rfl, if_pos h3, htn]
        simp
      · have h3 : ¬ (some t = some x) := by simpa using hxt
        rw [if_neg hxt]
        by_cases hx : x < L.heap.length
        · rw [if_pos hx]
          cases hnd : L.heap[x]? with
          | none => rfl
          | some nd => simp [hxt]
        · rw [if_neg hx, List.getElem?_eq_none (l := L.heap) (by omega)]
          simp
          omega

/-! ## Assignments to one node of the chain -/

theorem sum_map_congr_of_not_mem (c : List Nat) (a : Nat) (f g : Nat → Int)
    (ha : a ∉ c) (hg : ∀ x, x ≠ a → g x = f x) : (c.map g).sum = (c.map f).sum := by
  have : c.map g = c.map f :=
    List.map_congr_left (fun x hx => hg x (fun e => ha (e ▸ hx)))
  rw [this]

/-- Changing the summand of one member of a duplicate-free list changes the sum by as much. -/
theorem sum_map_update (a : Nat) (f g : Nat → Int) (δ : Int) (hga : g a = f a + δ)
    (hg : ∀ x, x ≠ a → g x = f x) :
    ∀ (c : List Nat), c.Nodup → a ∈ c → (c.map g).sum = (c.map f).sum + δ
  | [], _, ha => by simp at ha
  | b :: c, hnd, ha => by
    obtain ⟨hb, hnd2⟩ := List.nodup_cons.1 hnd
    by_cases hba : b = a
    · subst hba
      simp only [List.map_cons, List.sum_cons, hga, sum_map_congr_of_not_mem c b f g hb hg]
      omega
    · have hac : a ∈ c := by
        rcases List.mem_cons.1 ha with e | e
        · exact absurd e.symm hba
        · exact e
      simp only [List.map_cons, List.sum_cons, hg b hba, sum_map_update a f g δ hga hg c hnd2 hac]
      omega

theorem countAt_set {heap : List (LNode T)} {a : Nat} {n0 : LNode T} (h : heap[a]? = some n0)
    (n : LNode T) (x : Nat) :
    countAt (heap.set a n) x = if x = a then n.count else countAt heap x := by
  unfold countAt
  rw [set_lookup h]
  by_cases hx : x = a
  · simp [hx]
  · simp [hx]

theorem itemsAt_set {heap : List (LNode T)} {a : Nat} {n0 : LNode T} (h : heap[a]? = some n0)
    (n : LNode T) (x : Nat) :
    itemsAt (heap.set a n) x = if x = a then LNode.items n else itemsAt heap x := by
  unfold itemsAt
  rw [set_lookup h]
  by_cases hx : x = a
  · simp [hx]
  · simp [hx]

/-- The invariants survive an assignment to a chain node that keeps its `next`, raises its
count by one within the capacity, and is counted in `size_`. -/
theorem Inv.update {Size : Nat} {L : Lariat T} {c : List Nat} {a : Nat} {n n2 : LNode T}
    (h : Inv Size L c) (ha : a ∈ c) (hn : L.heap[a]? = some n) (hnext : n2.next = n.next)
    (hcnt : n2.count = n.count + 1) (hroom : n.count < Size) (hlen : n2.values.length = Size) :
    Inv Size { L with heap := L.heap.set a n2, size_ := L.size_ + 1 } c where
  linked := by
    refine Linked.congr h.linked (fun x _ nd hnd => ?_)
    dsimp only
    rw [set_lookup hn]
    by_cases hx : x = a
    · subst hx
      rw [hn] at hnd
      cases hnd
      exact ⟨n2, by simp, hnext⟩
    · exact ⟨nd, by simp [hx, hnd], rfl⟩
  nodup := h.nodup
  tail := h.tail
  occ := by
    intro x hx
    dsimp only
    rw [set_lookup hn]
    by_cases hxa : x = a
    · subst hxa
      obtain ⟨n0, hn0, h1, _, _⟩ := h.occ x hx
      rw [hn] at hn0
      cases hn0
      exact ⟨n2, by simp, by omega, by omega, hlen⟩
    · simpa [hxa] using h.occ x hx
  total := by
    dsimp only
    rw [h.total]
    refine (sum_map_update a _ _ 1 ?_ ?_ c h.nodup ha).symm
    · rw [countAt_set hn, if_pos rfl, hcnt]
      simp [countAt, hn]
    · intro x hx
      rw [countAt_set hn, if_neg hx]
  asize := h.asize

theorem shift_up_of_lookup {Size : Nat} {L : Lariat T} {a : Nat} {n : LNode T}
    (hn : L.heap[a]? = some n) (ind : Int) (hind : 0 ≤ ind) (hroom : n.count < Size) :
    shift_up Size L (some a) ind =
      .ok { L with
        heap := L.heap.set a { n with
            values := shiftVals n.values (n.count - ind).toNat (n.count - 1) } } := by
  rw [shift_up, deref_of_lookup hn]
  dsimp only
  rw [shift_up_loop_eq Size a _ _ L n hn, if_pos (by omega)]
  rfl

/-! ## `push_front`: empty chain and head with room -/

theorem Inv.head_eq {Size : Nat} {L : Lariat T} {a : Nat} {rest : List Nat}
    (h : Inv Size L (a :: rest)) : L.head_ = some a := h.linked.1

theorem Inv.node_count {Size : Nat} {L : Lariat T} {c : List Nat} {a : Nat} {n : LNode T}
    (h : Inv Size L c) (ha : a ∈ c) (hn : L.heap[a]? = some n) :
    1 ≤ n.count ∧ n.count ≤ Size ∧ n.values.length = Size := by
  obtain ⟨n0, hn0, h1⟩ := h.occ a ha
  rw [hn] at hn0
  cases hn0
  exact h1

/-- The call of `push_front` when the head node has room. -/
theorem push_front_room {Size : Nat} {L : Lariat T} {a : Nat} {rest : List Nat} {n : LNode T}
    (h : Inv Size L (a :: rest)) (hn : L.heap[a]? = some n) (hroom : n.count < Size) (v : T) :
    ∃ L2, push_front Size L v = .ok L2 ∧ Inv Size L2 (a :: rest) ∧
      itemsAt L2.heap a = some v :: itemsAt L.heap a ∧
      (∀ x, x ≠ a → itemsAt L2.heap x = itemsAt L.heap x) ∧
      L2.size_ = L.size_ + 1 ∧ L2.nodecount_ = L.nodecount_ ∧
      L2.heap.length = L.heap.length := by
  obtain ⟨h1, h2, hlen⟩ := h.node_count (List.mem_cons_self _ _) hn
  have hhead := h.head_eq
  have hne : ¬ (n.count = L.asize_) := by rw [h.asize]; omega
  have hlt : n.count < L.asize_ := by rw [h.asize]; exact hroom
  have hsh := shift_up_of_lookup hn 0 (le_refl 0) hroom
  have hn1 := set_lookup hn
    { n with values := shiftVals n.values (n.count - 0).toNat (n.count - 1) } a
  rw [if_pos rfl] at hn1
  refine ⟨{ L with
      heap := L.heap.set a { n with
          values := (shiftVals n.values (n.count - 0).toNat (n.count - 1)).set 0 (some v),
          count := n.count + 1 },
      size_ := L.size_ + 1 }, ?_, ?_, ?_, ?_, rfl, rfl, ?_⟩
  · have hcond : ¬ (L.head_ = none ∧ L.tail_ = none) := by rw [hhead]; simp
    have h0 : (0 : Int) ≤ 0 ∧ (0 : Int) < Size := by omega
    have hd : deref L L.head_ = .ok (a, n) := by rw [hhead]; exact deref_of_lookup hn
    rw [push_front, if_neg hcond, hd]
    dsimp only
    rw [if_neg hne, if_pos hlt, hhead, hsh]
    dsimp only
    rw [hhead, add_value_of_lookup (L := ⟨_, _, _, _, _, _⟩) hn1 0 (some v) h0]
    simp [List.set_set]
  · exact h.update (List.mem_cons_self _ _) hn rfl rfl hroom
      (by simp [shiftVals_length, hlen])
  · dsimp only
    rw [itemsAt_set hn, if_pos rfl]
    simp only [itemsAt, hn, LNode.items]
    have e1 : (n.count + 1).toNat = n.count.toNat + 1 := by omega
    have e2 : n.count - 0 = n.count := by omega
    have e3 : n.count - 1 = ((n.count.toNat : Nat) : Int) - 1 := by omega
    rw [e1, e2, e3]
    exact shiftVals_head n.values n.count.toNat (by omega) (some v)
  · intro x hx
    dsimp only
    rw [itemsAt_set hn, if_neg hx]
  · simp

theorem Inv.nil_fields {Size : Nat} {L : Lariat T} (h : Inv Size L []) :
    L.head_ = none ∧ L.tail_ = none ∧ L.size_ = 0 :=
  ⟨h.linked, h.tail, by simpa using h.total⟩

/-- On a container with null `head_` and `tail_`, `push_back` and `push_front` do the same:
both allocate the first node and store the value in its slot 0. -/
theorem push_back_eq_push_front_of_null (Size : Nat) {L : Lariat T} (hh : L.head_ = none)
    (ht : L.tail_ = none) (v : T) : push_back Size L v = push_front Size L v := by
  have hcond : L.head_ = none ∧ L.tail_ = none := ⟨hh, ht⟩
  rw [push_back, push_front, if_pos hcond, if_pos hcond]
  simp [kick_start, allocate, deref, freshNode]

/-- The call of `push_front` on the empty chain. -/
theorem push_front_empty {Size : Nat} {L : Lariat T} (h : Inv Size L []) (hS : 0 < Size)
    (v : T) :
    ∃ L2, push_front Size L v = .ok L2 ∧ Inv Size L2 [L.heap.length] ∧
      itemsAt L2.heap L.heap.length = [some v] ∧
      L2.size_ = L.size_ + 1 ∧ L2.nodecount_ = L.nodecount_ + 1 ∧
      L2.heap.length = L.heap.length + 1 := by
  obtain ⟨hh, ht, hsz⟩ := h.nil_fields
  have hcond : L.head_ = none ∧ L.tail_ = none := ⟨hh, ht⟩
  have hl : (L.heap ++ [(freshNode Size : LNode T)])[L.heap.length]? =
      some (freshNode Size) := by simp
  have h0 : (0 : Int) ≤ 0 ∧ (0 : Int) < Size := by omega
  have hnew := set_lookup hl { (freshNode Size : LNode T) with
      values := (freshNode Size : LNode T).values.set (0 : Int).toNat (some v),
      count := (freshNode Size : LNode T).count + 1 } L.heap.length
  rw [if_pos rfl] at hnew
  refine ⟨{ L with
      heap := (L.heap ++ [(freshNode Size : LNode T)]).set L.heap.length { (freshNode Size : LNode T) with
          values := (freshNode Size : LNode T).values.set (0 : Int).toNat (some v),
          count := (freshNode Size : LNode T).count + 1 },
      head_ := some L.heap.length, tail_ := some L.heap.length,
      size_ := L.size_ + 1, nodecount_ := L.nodecount_ + 1 }, ?_, ?_, ?_, rfl, rfl, ?_⟩
  · rw [push_front, if_pos hcond]
    dsimp only [kick_start, allocate]
    rw [add_value_of_lookup (L := ⟨_, _, _, _, _, _⟩) hl 0 (some v) h0]
  · refine ⟨?_, by simp, rfl, ?_, ?_, h.asize⟩
    · exact ⟨rfl, _, hnew, rfl⟩
    · intro x hx
      rw [List.mem_singleton] at hx
      subst hx
      refine ⟨_, hnew, ?_, ?_, ?_⟩
      · simp [freshNode]
      · simp [freshNode]; omega
      · simp [freshNode]
    · dsimp only
      simp [countAt, hnew, hsz, freshNode]
  · dsimp only
    simp only [itemsAt, hnew, LNode.items, freshNode]
    cases Size with
    | zero => omega
    | succ k => simp [List.replicate_succ]
  · simp

/-! ## `push_front`: full head -/

theorem Linked.cons_of_some {heap : List (LNode T)} {t : Nat} :
    ∀ {c : List Nat}, Linked heap (some t) c → ∃ c2, c = t :: c2
  | [], h => by have : some t = none := h; cases this
  | b :: c, h => by
    obtain ⟨hp, _⟩ := h
    cases hp
    exact ⟨c, rfl⟩

/-- In a well-formed chain the successor of the head is another allocated node. -/
theorem Inv.succ_of_head {Size : Nat} {L : Lariat T} {a : Nat} {rest : List Nat} {n : LNode T}
    (h : Inv Size L (a :: rest)) (hn : L.heap[a]? = some n) :
    Linked L.heap n.next rest ∧
      ∀ t, n.next = some t → t ≠ a ∧ ∃ tn, L.heap[t]? = some tn := by
  obtain ⟨_, n0, hn0, hl⟩ := h.linked
  rw [hn] at hn0
  cases hn0
  refine ⟨hl, fun t ht => ?_⟩
  rw [ht] at hl
  obtain ⟨c2, rfl⟩ := hl.cons_of_some
  have hnd := h.nodup
  refine ⟨?_, hl.lookup t (List.mem_cons_self _ _)⟩
  rintro rfl
  simp at hnd

theorem exists_eq_ok {α : Type} {r : Except Halt α} {x : α} (h : r = .ok x) :
    ∃ y, r = .ok y ∧ y = x := ⟨x, h, rfl⟩

/-- The run of `push_front` when the head node is full and the capacity is at least 2. -/
theorem push_front_full_run {Size : Nat} {L : Lariat T} {a : Nat} {n : LNode T} (v : T)
    (hhead : L.head_ = some a) (hn : L.heap[a]? = some n)
    (ht : ∀ t, n.next = some t → t ≠ a ∧ ∃ tn, L.heap[t]? = some tn)
    (has : L.asize_ = Size) (hfull : n.count = Size) (hS : 2 ≤ Size) :
    ∃ L4, push_front Size L v = .ok L4 ∧
      L4.heap.length = L.heap.length + 1 ∧
      L4.heap[a]? = some { n with
          next := some L.heap.length,
          count := n.count - (Size / 2 : Nat) + 1,
          values := (shiftVals n.values (Size - Size / 2)
            (((Size - Size / 2 : Nat) : Int) - 1)).set 0 (some v) } ∧
      L4.heap[L.heap.length]? = some { (freshNode Size : LNode T) with
          next := n.next,
          count := (Size / 2 : Nat),
          values := moveVals Size n.values (List.replicate Size none) (Size / 2) 0 } ∧
      (∀ x, x ≠ a → x ≠ L.heap.length →
        L4.heap[x]? = (L.heap[x]?).map (fun nd =>
          { nd with prev := if n.next = some x then some L.heap.length else nd.prev })) ∧
      L4.head_ = L.head_ ∧
      L4.tail_ = (if L.head_ = L.tail_ then some L.heap.length else L.tail_) ∧
      L4.size_ = L.size_ + 1 ∧ L4.nodecount_ = L.nodecount_ + 1 ∧ L4.asize_ = L.asize_ := by
  obtain ⟨L1, hsplit, hlen1, ha1, hm1, hfr1, hhead1, htail1, hsize1, hnc1, has1⟩ :=
    split_spec Size hn ht
  have hlt : a < L.heap.length := (List.getElem?_eq_some.1 hn).1
  have hne : a ≠ L.heap.length := by omega
  have hne2 : L.heap.length ≠ a := by omega
  have hcond : ¬ (L.head_ = none ∧ L.tail_ = none) := by rw [hhead]; simp
  have hd : deref L L.head_ = .ok (a, n) := by rw [hhead]; exact deref_of_lookup hn
  have hfull2 : n.count = L.asize_ := by rw [has, hfull]
  have hk : (Int.tdiv L1.asize_ 2).toNat = Size / 2 := by
    rw [has1, has, tdiv_two]; omega
  -- the loop of `move_half_values`
  have hmove := move_half_values_loop_eq Size a L.heap.length hne (Size / 2) 0 L1 _ _
    (has1.trans has) ha1 hm1 (by omega)
  rw [Nat.cast_zero] at hmove
  obtain ⟨L2, hrun2, hL2⟩ := exists_eq_ok hmove
  have h2m : L2.heap[L.heap.length]? = some { (freshNode Size : LNode T) with
      next := n.next,
      count := (Size / 2 : Nat),
      values := moveVals Size n.values (List.replicate Size none) (Size / 2) 0 } := by
    rw [hL2]
    dsimp only
    rw [List.getElem?_set, if_neg hne, List.getElem?_set, if_pos rfl, if_pos (by omega)]
    simp [freshNode]
  have h2a : L2.heap[a]? = some { n with
      next := some L.heap.length, count := n.count - (Size / 2 : Nat) } := by
    rw [hL2]
    dsimp only
    rw [List.getElem?_set, if_pos rfl, if_pos (by simp; omega)]
  have h2len : L2.heap.length = L.heap.length + 1 := by rw [hL2]; simp [hlen1]
  have h2x : ∀ x, x ≠ a → x ≠ L.heap.length → L2.heap[x]? = L1.heap[x]? := by
    intro x hxa hxl
    rw [hL2]
    dsimp only
    rw [List.getElem?_set, if_neg (fun e => hxa e.symm), List.getElem?_set,
      if_neg (fun e => hxl e.symm)]
  have h2f : L2.head_ = L1.head_ ∧ L2.tail_ = L1.tail_ ∧ L2.size_ = L1.size_ ∧
      L2.nodecount_ = L1.nodecount_ ∧ L2.asize_ = L1.asize_ := by
    rw [hL2]; exact ⟨rfl, rfl, rfl, rfl, rfl⟩
  obtain ⟨h2head, h2tail, h2size, h2nc, h2as⟩ := h2f
  clear hL2 hmove
  -- `shift_up`
  have hshift := @shift_up_of_lookup T Size L2 a _ h2a 0 (le_refl 0) (by dsimp only; omega)
  obtain ⟨L3, hrun3, hL3⟩ := exists_eq_ok hshift
  have e1 : (n.count - ((Size / 2 : Nat) : Int) - 0).toNat = Size - Size / 2 := by omega
  have e2 : n.count - ((Size / 2 : Nat) : Int) - 1 = ((Size - Size / 2 : Nat) : Int) - 1 := by
    omega
  have h3a : L3.heap[a]? = some { n with
      next := some L.heap.length, count := n.count - (Size / 2 : Nat),
      values := shiftVals n.values (Size - Size / 2)
        (((Size - Size / 2 : Nat) : Int) - 1) } := by
    rw [hL3]
    dsimp only
    rw [List.getElem?_set, if_pos rfl, if_pos (by omega), e1, e2]
  have h3x : ∀ x, x ≠ a → L3.heap[x]? = L2.heap[x]? := by
    intro x hxa
    rw [hL3]
    dsimp only
    rw [List.getElem?_set, if_neg (fun e => hxa e.symm)]
  have h3len : L3.heap.length = L.heap.length + 1 := by rw [hL3]; simp [h2len]
  have h3f : L3.head_ = L2.head_ ∧ L3.tail_ = L2.tail_ ∧ L3.size_ = L2.size_ ∧
      L3.nodecount_ = L2.nodecount_ ∧ L3.asize_ = L2.asize_ := by
    rw [hL3]; exact ⟨rfl, rfl, rfl, rfl, rfl⟩
  obtain ⟨h3head, h3tail, h3size, h3nc, h3as⟩ := h3f
  clear hL3 hshift
  -- the update of `tail_` and the final `add_value`
  have h0 : (0 : Int) ≤ 0 ∧ (0 : Int) < Size := by omega
  have hite : (if L3.head_ = L3.tail_ then { L3 with tail_ := some L.heap.length } else L3) =
      { L3 with tail_ := if L.head_ = L.tail_ then some L.heap.length else L.tail_ } := by
    have h3t : L.tail_ = L3.tail_ := by rw [h3tail, h2tail, htail1]
    have h3h : L.head_ = L3.head_ := by rw [h3head, h2head, hhead1]
    by_cases hc : L3.head_ = L3.tail_
    · rw [if_pos hc, if_pos (by rw [h3t, h3h]; exact hc)]
    · rw [if_neg hc, if_neg (by rw [h3t, h3h]; exact hc), h3t]
  obtain ⟨L3b, hL3b⟩ : ∃ L3b : Lariat T, L3b = { L3 with
      tail_ := if L.head_ = L.tail_ then some L.heap.length else L.tail_ } := ⟨_, rfl⟩
  rw [← hL3b] at hite
  have hbheap : L3b.heap = L3.heap := by rw [hL3b]
  have hbhead : L3b.head_ = some a := by rw [hL3b]; dsimp only; rw [h3head, h2head, hhead1, hhead]
  have hbf : L3b.tail_ = (if L.head_ = L.tail_ then some L.heap.length else L.tail_) ∧
      L3b.size_ = L3.size_ ∧ L3b.nodecount_ = L3.nodecount_ ∧ L3b.asize_ = L3.asize_ := by
    rw [hL3b]; exact ⟨rfl, rfl, rfl, rfl⟩
  obtain ⟨hbtail, hbsize, hbnc, hbas⟩ := hbf
  clear hL3b
  have hadd := add_value_of_lookup (L := L3b) (hbheap ▸ h3a) 0 (some v) h0
  rw [push_front, if_neg hcond, hd]
  dsimp only
  rw [if_pos hfull2, hhead, hsplit]
  dsimp only
  rw [hhead1, hhead, move_half_values, hk, hrun2]
  dsimp only
  rw [h2head, hhead1, hhead, hrun3]
  dsimp only
  rw [hite]
  rw [hbhead, hadd]
  refine ⟨_, rfl, ?_, ?_, ?_, ?_, ?_, ?_, ?_, ?_, ?_⟩
  · simp [hbheap, h3len]
  · dsimp only
    rw [List.getElem?_set, if_pos rfl, if_pos (by rw [hbheap]; omega)]
    rfl
  · dsimp only
    rw [List.getElem?_set, if_neg hne, hbheap, h3x _ hne2, h2m]
  · intro x hxa hxl
    dsimp only
    rw [List.getElem?_set, if_neg (fun e => hxa e.symm), hbheap, h3x x hxa, h2x x hxa hxl,
      hfr1 x hxa hxl]
  · exact hbhead
  · rw [hhead] at hbtail
    exact hbtail
  · dsimp only
    rw [hbsize, h3size, h2size, hsize1]
  · dsimp only
    rw [hbnc, h3nc, h2nc, hnc1]
  · dsimp only
    rw [hbas, h3as, h2as, has1]

/-- A node that differs from the old one at most in `prev`. -/
theorem lookup_map_prev {heap heap2 : List (LNode T)} {x : Nat} {g : LNode T → Option Nat}
    (h : heap2[x]? = (heap[x]?).map (fun nd => { nd with prev := g nd })) :
    countAt heap2 x = countAt heap x ∧ itemsAt heap2 x = itemsAt heap x ∧
      ∀ nd, heap[x]? = some nd → ∃ nd2, heap2[x]? = some nd2 ∧ nd2.next = nd.next ∧
        nd2.count = nd.count ∧ nd2.values = nd.values := by
  unfold countAt itemsAt
  rw [h]
  cases heap[x]? with
  | none => simp
  | some nd => simp [LNode.items]

/-- The call of `push_front` when the head node is full and the capacity is at least 2: the
head keeps the lower run behind the new value, the new second node holds the upper run. -/
theorem push_front_full {Size : Nat} {L : Lariat T} {a : Nat} {rest : List Nat} {n : LNode T}
    (h : Inv Size L (a :: rest)) (hn : L.heap[a]? = some n) (hfull : n.count = Size)
    (hS : 2 ≤ Size) (v : T) :
    ∃ L4, push_front Size L v = .ok L4 ∧ Inv Size L4 (a :: L.heap.length :: rest) ∧
      itemsAt L4.heap a ++ itemsAt L4.heap L.heap.length = some v :: itemsAt L.heap a ∧
      (∀ x ∈ rest, itemsAt L4.heap x = itemsAt L.heap x) ∧
      L4.size_ = L.size_ + 1 ∧ L4.nodecount_ = L.nodecount_ + 1 ∧
      L4.heap.length = L.heap.length + 1 := by
  obtain ⟨hlrest, ht⟩ := h.succ_of_head hn
  obtain ⟨_, _, hlen⟩ := h.node_count (List.mem_cons_self _ _) hn
  obtain ⟨L4, hrun, h4len, h4a, h4m, h4x, h4head, h4tail, h4size, h4nc, h4as⟩ :=
    push_front_full_run v h.head_eq hn ht h.asize hfull hS
  have hlt : a < L.heap.length := (List.getElem?_eq_some.1 hn).1
  obtain ⟨harest, hndrest⟩ := List.nodup_cons.1 h.nodup
  have hrest : ∀ x ∈ rest, x ≠ a ∧ x ≠ L.heap.length := by
    intro x hx
    have := hlrest.lt_length x hx
    exact ⟨fun e => harest (e ▸ hx), by omega⟩
  have hframe := fun x (hx : x ∈ rest) => lookup_map_prev (h4x x (hrest x hx).1 (hrest x hx).2)
  have hcA : countAt L4.heap a = (Size : Int) - (Size / 2 : Nat) + 1 := by
    simp [countAt, h4a, hfull]
  have hcM : countAt L4.heap L.heap.length = (Size / 2 : Nat) := by
    simp [countAt, h4m]
  refine ⟨L4, hrun, ⟨?_, ?_, ?_, ?_, ?_, h4as.trans h.asize⟩, ?_,
    fun x hx => (hframe x hx).2.1, h4size, h4nc, h4len⟩
  · refine ⟨h4head.trans h.head_eq, _, h4a, rfl, _, h4m, ?_⟩
    exact Linked.congr hlrest (fun x hx nd hnd => by
      obtain ⟨nd2, h1, h2, _⟩ := (hframe x hx).2.2 nd hnd
      exact ⟨nd2, h1, h2⟩)
  · refine List.nodup_cons.2 ⟨?_, List.nodup_cons.2 ⟨?_, hndrest⟩⟩
    · intro hmem
      rcases List.mem_cons.1 hmem with e | e
      · omega
      · exact harest e
    · intro hmem
      exact (hrest _ hmem).2 rfl
  · rw [h4tail, h.tail, h.head_eq]
    cases rest with
    | nil => simp
    | cons b r =>
      have hne : ¬ (some a = (a :: b :: r).getLast?) := by
        intro e
        rw [List.getLast?_cons_cons] at e
        exact harest (List.mem_of_getLast?_eq_some e.symm)
      rw [if_neg hne]
      simp [List.getLast?_cons_cons]
  · intro x hx
    rcases List.mem_cons.1 hx with rfl | hx
    · refine ⟨_, h4a, ?_, ?_, ?_⟩
      · dsimp only; omega
      · dsimp only; omega
      · simp [shiftVals_length, hlen]
    · rcases List.mem_cons.1 hx with rfl | hx
      · refine ⟨_, h4m, ?_, ?_, ?_⟩
        · dsimp only; omega
        · dsimp only; omega
        · simp [moveVals_length]
      · obtain ⟨nd, hnd, hocc⟩ := h.occ x (List.mem_cons_of_mem _ hx)
        obtain ⟨nd2, e1, _, e3, e4⟩ := (hframe x hx).2.2 nd hnd
        exact ⟨nd2, e1, by rw [e3, e4]; exact hocc⟩
  · have hsum : (rest.map (countAt L4.heap)).sum = (rest.map (countAt L.heap)).sum := by
      rw [List.map_congr_left (fun x hx => (hframe x hx).1)]
    have hold : countAt L.heap a = Size := by simp [countAt, hn, hfull]
    rw [h4size, h.total]
    simp only [List.map_cons, List.sum_cons, hcA, hcM, hsum, hold]
    omega
  · have e1 : ((Size : Int) - ((Size / 2 : Nat) : Int) + 1).toNat = (Size - Size / 2) + 1 := by
      omega
    have e2 : (((Size / 2 : Nat) : Int)).toNat = Size / 2 := by omega
    simp only [itemsAt, h4a, h4m, hn, LNode.items, hfull, e1, e2, Int.toNat_ofNat]
    rw [shiftVals_head n.values (Size - Size / 2) (by omega) (some v),
      moveVals_take Size n.values _ hlen (by simp)]
    rw [List.cons_append, List.take_append_drop, List.take_of_length_le (by omega)]

theorem length_le_sum_map (f : Nat → Int) : ∀ (c : List Nat), (∀ a ∈ c, 1 ≤ f a) →
    (c.length : Int) ≤ (c.map f).sum
  | [], _ => by simp
  | a :: c, h => by
    have h1 := h a (List.mem_cons_self _ _)
    have h2 := length_le_sum_map f c (fun x hx => h x (List.mem_cons_of_mem _ hx))
    simp only [List.length_cons, List.map_cons, List.sum_cons]
    push_cast
    omega

/-- A well-formed container with a node has a positive `size_`. -/
theorem Inv.size_pos {Size : Nat} {L : Lariat T} {a : Nat} {rest : List Nat}
    (h : Inv Size L (a :: rest)) : 0 < L.size_ := by
  have := length_le_sum_map (countAt L.heap) (a :: rest) (fun x hx => by
    obtain ⟨n, hn, h1, _⟩ := h.occ x hx
    simp [countAt, hn, h1])
  rw [← h.total] at this
  simp only [List.length_cons] at this
  push_cast at this
  omega

/-! ## `push_back` -/

/-- The last node of a chain has a null `next`. -/
theorem Linked.last_next {heap : List (LNode T)} {b : Nat} :
    ∀ {pre : List Nat} {p : Option Nat}, Linked heap p (pre ++ [b]) →
      ∃ t, heap[b]? = some t ∧ t.next = none
  | [], _, h => by
    obtain ⟨_, t, ht, hl⟩ := h
    exact ⟨t, ht, hl⟩
  | _ :: pre, _, h => by
    obtain ⟨_, _, _, hl⟩ := h
    exact @Linked.last_next _ _ pre _ hl

/-- Linking a new node behind the last node of a chain extends the chain by that node. -/
theorem Linked.append_new {heap heap2 : List (LNode T)} {b m : Nat} {t2 nm : LNode T}
    (hb : heap2[b]? = some t2) (hbn : t2.next = some m)
    (hm : heap2[m]? = some nm) (hmn : nm.next = none) :
    ∀ {pre : List Nat} {p : Option Nat}, Linked heap p (pre ++ [b]) →
      (∀ x ∈ pre, ∀ nd, heap[x]? = some nd →
        ∃ nd2, heap2[x]? = some nd2 ∧ nd2.next = nd.next) →
      Linked heap2 p (pre ++ [b, m])
  | [], _, h, _ => by
    obtain ⟨hp, _⟩ := h
    exact ⟨hp, t2, hb, hbn ▸ ⟨rfl, nm, hm, hmn⟩⟩
  | x :: pre, _, h, hpre => by
    obtain ⟨hp, nx, hnx, hl⟩ := h
    obtain ⟨nx2, hnx2, hnext⟩ := hpre x (List.mem_cons_self _ _) nx hnx
    refine ⟨hp, nx2, hnx2, ?_⟩
    rw [hnext]
    exact Linked.append_new hb hbn hm hmn hl (fun y hy => hpre y (List.mem_cons_of_mem _ hy))

theorem Inv.tail_eq {Size : Nat} {L : Lariat T} {pre : List Nat} {b : Nat}
    (h : Inv Size L (pre ++ [b])) : L.tail_ = some b := by
  rw [h.tail, List.getLast?_concat]

theorem Inv.head_ne_none {Size : Nat} {L : Lariat T} {pre : List Nat} {b : Nat}
    (h : Inv Size L (pre ++ [b])) : ¬ (L.head_ = none ∧ L.tail_ = none) := by
  rw [h.tail_eq]; simp

theorem take_set_succ (vs : List (Option T)) (k : Nat) (hk : k < vs.length) (v : Option T) :
    (vs.set k v).take (k + 1) = vs.take k ++ [v] := by
  apply List.ext_getElem?
  intro j
  rw [List.getElem?_take, List.getElem?_set, List.getElem?_append, List.length_take,
    List.getElem?_take]
  have hmin : min k vs.length = k := by omega
  rw [hmin]
  by_cases hj : j < k
  · have h1 : j < k + 1 := by omega
    have h2 : ¬ (k = j) := by omega
    rw [if_pos h1, if_neg h2, if_pos hj, if_pos hj]
  · by_cases hjk : j = k
    · subst hjk
      rw [if_pos (by omega), if_pos rfl, if_pos hk, if_neg hj]
      simp
    · have h1 : ¬ (j < k + 1) := by omega
      rw [if_neg h1, if_neg hj]
      have : 0 < j - k := by omega
      rw [List.getElem?_eq_none (by simp; omega)]

/-- The call of `push_back` when the tail node has room. -/
theorem push_back_room {Size : Nat} {L : Lariat T} {pre : List Nat} {b : Nat} {t : LNode T}
    (h : Inv Size L (pre ++ [b])) (hn : L.heap[b]? = some t) (hroom : t.count < Size) (v : T) :
    ∃ L2, push_back Size L v = .ok L2 ∧ Inv Size L2 (pre ++ [b]) ∧
      itemsAt L2.heap b = itemsAt L.heap b ++ [some v] ∧
      (∀ x, x ≠ b → itemsAt L2.heap x = itemsAt L.heap x) ∧
      L2.size_ = L.size_ + 1 ∧ L2.nodecount_ = L.nodecount_ ∧
      L2.heap.length = L.heap.length := by
  have hb : b ∈ pre ++ [b] := by simp
  obtain ⟨h1, h2, hlen⟩ := h.node_count hb hn
  have htail := h.tail_eq
  have hne : ¬ (t.count = L.asize_) := by rw [h.asize]; omega
  have hd : deref L L.tail_ = .ok (b, t) := by rw [htail]; exact deref_of_lookup hn
  have hi : 0 ≤ t.count ∧ t.count < (Size : Int) := by omega
  refine ⟨{ L with
      heap := L.heap.set b { t with
          values := t.values.set t.count.toNat (some v), count := t.count + 1 },
      size_ := L.size_ + 1 }, ?_, ?_, ?_, ?_, rfl, rfl, ?_⟩
  · rw [push_back, if_neg h.head_ne_none, hd]
    dsimp only
    rw [if_neg hne]
    dsimp only
    rw [hd]
    dsimp only
    rw [htail, add_value_of_lookup hn _ _ hi, htail]
  · exact h.update hb hn rfl rfl hroom (by simp [hlen])
  · dsimp only
    rw [itemsAt_set hn, if_pos rfl]
    simp only [itemsAt, hn, LNode.items]
    have e1 : (t.count + 1).toNat = t.count.toNat + 1 := by omega
    rw [e1]
    exact take_set_succ t.values t.count.toNat (by omega) (some v)
  · intro x hx
    dsimp only
    rw [itemsAt_set hn, if_neg hx]
  · simp

theorem exists_concat_of_ne_nil {α : Type} :
    ∀ (c : List α), c ≠ [] → ∃ pre b, c = pre ++ [b] := by
  intro c hc
  exact ⟨c.dropLast, c.getLast hc, (List.dropLast_append_getLast hc).symm⟩

/-! ## Full nodes: where `push_front` and `push_back` stop -/

/-- With capacity 1 a full head stays full after `split` and `move_half_values`, and
`shift_up` then assigns `values[1]`: `push_front` does not return. -/
theorem push_front_full_one_halts {L : Lariat T} {a : Nat} {rest : List Nat}
    (h : Inv 1 L (a :: rest)) (v : T) : push_front 1 L v = .error .outOfRange := by
  obtain ⟨n, hn, h1, h2, _⟩ := h.occ a (List.mem_cons_self _ _)
  obtain ⟨_, ht⟩ := h.succ_of_head hn
  obtain ⟨L1, hsplit, _, ha1, _, _, hhead1, _, _, _, has1⟩ := split_spec 1 hn ht
  have hhead := h.head_eq
  have hcond : ¬ (L.head_ = none ∧ L.tail_ = none) := by rw [hhead]; simp
  have hd : deref L L.head_ = .ok (a, n) := by rw [hhead]; exact deref_of_lookup hn
  have hfull2 : n.count = L.asize_ := by rw [h.asize]; omega
  have hk : (Int.tdiv L1.asize_ 2).toNat = 0 := by
    rw [has1, h.asize]; rfl
  have hcnt : (n.count - 0).toNat = 0 + 1 := by omega
  have hbad : ¬ (0 + 1 = 0 ∨ (0 ≤ n.count - 1 - ((0 + 1 : Nat) : Int) + 1 ∧
      n.count - 1 + 1 < ((1 : Nat) : Int))) := by
    rintro (h5 | ⟨h5, h6⟩) <;> omega
  rw [push_front, if_neg hcond, hd]
  dsimp only
  rw [if_pos hfull2, hhead, hsplit]
  dsimp only
  rw [hhead1, hhead, move_half_values, hk, move_half_values_loop]
  dsimp only
  rw [hhead1, hhead, shift_up, deref_of_lookup ha1]
  dsimp only
  rw [hcnt, shift_up_loop_eq 1 a _ _ L1 _ ha1, if_neg hbad]

theorem Inv.tail_next {Size : Nat} {L : Lariat T} {pre : List Nat} {b : Nat} {t : LNode T}
    (h : Inv Size L (pre ++ [b])) (hn : L.heap[b]? = some t) :
    ∀ x, t.next = some x → x ≠ b ∧ ∃ tn, L.heap[x]? = some tn := by
  obtain ⟨t0, ht0, hnext⟩ := h.linked.last_next
  rw [hn] at ht0
  cases ht0
  intro x hx
  rw [hnext] at hx
  cases hx

/-- The run of `push_back` on a full tail, up to the call of `move_half_values`: the new
node has a null `prev`, which is what `move_half_values` receives as its source. -/
theorem push_back_full_run {Size : Nat} {L L1 : Lariat T} {pre : List Nat} {b : Nat}
    {t : LNode T} (h : Inv Size L (pre ++ [b])) (hn : L.heap[b]? = some t)
    (hfull : t.count = Size) (v : T)
    (hsplit : split Size L (some b) = .ok (L1, some L.heap.length))
    (hm1 : L1.heap[L.heap.length]? = some { (freshNode Size : LNode T) with next := t.next }) :
    push_back Size L v =
      (match move_half_values Size { L1 with tail_ := some L.heap.length } none
          (some L.heap.length) with
      | .error e => .error e
      | .ok L3 =>
        match deref L3 L3.tail_ with
        | .error e => .error e
        | .ok (_, tn) => add_value Size L3 L3.tail_ tn.count (some v)) := by
  have htail := h.tail_eq
  have hd : deref L L.tail_ = .ok (b, t) := by rw [htail]; exact deref_of_lookup hn
  have hfull2 : t.count = L.asize_ := by rw [h.asize, hfull]
  rw [push_back, if_neg h.head_ne_none, hd]
  dsimp only
  rw [if_pos hfull2, htail, hsplit]
  dsimp only
  rw [deref_of_lookup (L := { L1 with tail_ := some L.heap.length }) hm1]
  rfl

/-- With a capacity of 2 or more `push_back` on a full tail dereferences the null `prev`
of the node that `split` has just created. -/
theorem push_back_full_halts {Size : Nat} {L : Lariat T} {pre : List Nat} {b : Nat}
    {t : LNode T} (h : Inv Size L (pre ++ [b])) (hn : L.heap[b]? = some t)
    (hfull : t.count = Size) (hS : 2 ≤ Size) (v : T) :
    push_back Size L v = .error .nullDeref := by
  obtain ⟨L1, hsplit, _, _, hm1, _, _, _, _, _, has1⟩ := split_spec Size hn (h.tail_next hn)
  obtain ⟨k, hk⟩ : ∃ k, (Int.tdiv (Size : Int) 2).toNat = k + 1 := by
    rw [tdiv_two]
    exact ⟨Size / 2 - 1, by omega⟩
  rw [push_back_full_run h hn hfull v hsplit hm1, move_half_values]
  dsimp only
  rw [has1, h.asize, hk, move_half_values_loop]
  rfl

/-- With capacity 1 `push_back` on a full tail moves nothing and stores the value in the
new node, which becomes the tail. -/
theorem push_back_full_one {L : Lariat T} {pre : List Nat} {b : Nat} {t : LNode T}
    (h : Inv 1 L (pre ++ [b])) (hn : L.heap[b]? = some t) (v : T) :
    ∃ L3, push_back 1 L v = .ok L3 ∧ Inv 1 L3 (pre ++ [b, L.heap.length]) ∧
      itemsAt L3.heap L.heap.length = [some v] ∧
      (∀ x ∈ pre ++ [b], itemsAt L3.heap x = itemsAt L.heap x) ∧
      L3.size_ = L.size_ + 1 ∧ L3.nodecount_ = L.nodecount_ + 1 := by
  have hb : b ∈ pre ++ [b] := by simp
  obtain ⟨h1, h2, hlen⟩ := h.node_count hb hn
  have hfull : t.count = ((1 : Nat) : Int) := by omega
  obtain ⟨t0, ht0, hnext⟩ := h.linked.last_next
  rw [hn] at ht0
  cases ht0
  obtain ⟨L1, hsplit, hlen1, ha1, hm1, hfr1, hhead1, htail1, hsize1, hnc1, has1⟩ :=
    split_spec 1 hn (h.tail_next hn)
  have hlt : b < L.heap.length := (List.getElem?_eq_some.1 hn).1
  have hk : (Int.tdiv L1.asize_ 2).toNat = 0 := by rw [has1, h.asize]; rfl
  have h0 : (0 : Int) ≤ 0 ∧ (0 : Int) < ((1 : Nat) : Int) := by decide
  have hm2 : ({ L1 with tail_ := some L.heap.length } : Lariat T).heap[L.heap.length]? =
      some { (freshNode 1 : LNode T) with next := t.next } := hm1
  have hadd := add_value_of_lookup hm2 0 (some v) h0
  obtain ⟨nn, hnn⟩ : ∃ nn : LNode T, nn = { (freshNode 1 : LNode T) with
      next := t.next, values := (freshNode 1 : LNode T).values.set 0 (some v),
      count := (freshNode 1 : LNode T).count + 1 } := ⟨_, rfl⟩
  have hrun : push_back 1 L v = .ok { L1 with
      tail_ := some L.heap.length, heap := L1.heap.set L.heap.length nn,
      size_ := L1.size_ + 1 } := by
    rw [hnn, push_back_full_run h hn hfull v hsplit hm1, move_half_values]
    dsimp only
    rw [hk, move_half_values_loop]
    dsimp only
    rw [deref_of_lookup hm2]
    dsimp only
    exact hadd
  have hnnf : nn.next = none ∧ nn.count = 1 ∧ nn.values.length = 1 ∧
      LNode.items nn = [some v] := by
    rw [hnn]
    exact ⟨hnext, rfl, rfl, rfl⟩
  obtain ⟨hnn1, hnn2, hnn3, hnn4⟩ := hnnf
  clear hnn hadd
  have hnew : (L1.heap.set L.heap.length nn)[L.heap.length]? = some nn := by
    rw [List.getElem?_set, if_pos rfl, if_pos (by omega)]
  have hold : ∀ x, x ≠ L.heap.length →
      (L1.heap.set L.heap.length nn)[x]? = L1.heap[x]? := by
    intro x hx
    rw [List.getElem?_set, if_neg (fun e => hx e.symm)]
  have hnd := h.nodup
  rw [List.nodup_append] at hnd
  have hpre : ∀ x ∈ pre, x ≠ b ∧ x ≠ L.heap.length := by
    intro x hx
    have := h.linked.lt_length x (List.mem_append_left _ hx)
    exact ⟨fun e => hnd.2.2 hx (e ▸ List.mem_singleton_self _), by omega⟩
  have hframe := fun x (hx : x ∈ pre) => lookup_map_prev (hfr1 x (hpre x hx).1 (hpre x hx).2)
  have hcnt : ∀ x ∈ pre ++ [b],
      countAt (L1.heap.set L.heap.length nn) x = countAt L.heap x ∧
      itemsAt (L1.heap.set L.heap.length nn) x = itemsAt L.heap x := by
    intro x hx
    have hxl : x ≠ L.heap.length := by
      have := h.linked.lt_length x hx
      omega
    rcases List.mem_append.1 hx with hx | hx
    · unfold countAt itemsAt
      rw [hold x hxl]
      exact ⟨(hframe x hx).1, (hframe x hx).2.1⟩
    · rw [List.mem_singleton] at hx
      subst hx
      unfold countAt itemsAt
      rw [hold x hxl, ha1, hn]
      exact ⟨rfl, rfl⟩
  refine ⟨_, hrun, ⟨?_, ?_, ?_, ?_, ?_, ?_⟩, ?_, fun x hx => (hcnt x hx).2, ?_, hnc1⟩
  · refine @Linked.append_new T L.heap _ b L.heap.length
      { t with next := some L.heap.length } nn ?_ rfl hnew hnn1 pre _
      (hhead1 ▸ h.linked) ?_
    · dsimp only
      rw [hold b (by omega), ha1]
    · intro x hx nd hnd2
      dsimp only
      rw [hold x (hpre x hx).2]
      obtain ⟨nd2, e1, e2, _⟩ := (hframe x hx).2.2 nd hnd2
      exact ⟨nd2, e1, e2⟩
  · have : pre ++ [b, L.heap.length] = (pre ++ [b]) ++ [L.heap.length] := by simp
    rw [this, List.nodup_append]
    refine ⟨h.nodup, by simp, ?_⟩
    intro x hx hx2
    rw [List.mem_singleton] at hx2
    subst hx2
    have := h.linked.lt_length _ hx
    omega
  · have : pre ++ [b, L.heap.length] = (pre ++ [b]) ++ [L.heap.length] := by simp
    rw [this, List.getLast?_concat]
  · intro x hx
    have hx2 : x ∈ pre ++ [b] ∨ x = L.heap.length := by
      simp only [List.mem_append, List.mem_cons, List.mem_singleton, List.not_mem_nil,
        or_false] at hx ⊢
      tauto
    dsimp only
    rcases hx2 with hx2 | rfl
    · have hxl : x ≠ L.heap.length := by
        have := h.linked.lt_length x hx2
        omega
      rw [hold x hxl]
      rcases List.mem_append.1 hx2 with hx3 | hx3
      · obtain ⟨nd, hnd2, hocc⟩ := h.occ x hx2
        obtain ⟨nd2, e1, _, e3, e4⟩ := (hframe x hx3).2.2 nd hnd2
        exact ⟨nd2, e1, by rw [e3, e4]; exact hocc⟩
      · rw [List.mem_singleton] at hx3
        subst hx3
        exact ⟨_, ha1, h1, h2, hlen⟩
    · exact ⟨_, hnew, by omega, by omega, hnn3⟩
  · have e : pre ++ [b, L.heap.length] = (pre ++ [b]) ++ [L.heap.length] := by simp
    dsimp only
    rw [e, List.map_append, List.sum_append, List.map_congr_left (fun x hx => (hcnt x hx).1),
      hsize1, h.total]
    simp [countAt, hnew, hnn2]
  · exact h.asize ▸ has1
  · dsimp only
    simp [itemsAt, hnew, hnn4]
  · dsimp only
    rw [hsize1]

/-! ## `insert` strictly inside the sequence -/

/-- In a chain without a cycle the successor of a node is another allocated node. -/
theorem Linked.succ_of_mem {heap : List (LNode T)} {x : Nat} {ln : LNode T}
    (hx : heap[x]? = some ln) :
    ∀ {c : List Nat} {p : Option Nat}, Linked heap p c → c.Nodup → x ∈ c →
      ∀ t, ln.next = some t → t ≠ x ∧ ∃ tn, heap[t]? = some tn
  | [], _, _, _, hmem => by simp at hmem
  | a :: c, _, h, hnd, hmem => by
    obtain ⟨_, n, hn, hl⟩ := h
    obtain ⟨hac, hnd2⟩ := List.nodup_cons.1 hnd
    by_cases hxa : x = a
    · subst hxa
      rw [hx] at hn
      cases hn
      intro t ht
      rw [ht] at hl
      obtain ⟨c2, rfl⟩ := hl.cons_of_some
      refine ⟨?_, hl.lookup t (List.mem_cons_self _ _)⟩
      rintro rfl
      exact hac (List.mem_cons_self _ _)
    · have hxc : x ∈ c := by
        rcases List.mem_cons.1 hmem with e | e
        · exact absurd e hxa
        · exact e
      exact Linked.succ_of_mem hx hl hnd2 hxc

/-- The walk of `find_node`, when it completes, ends at null or at a node of the chain. -/
theorem find_node_loop_mem {L : Lariat T} : ∀ (k : Nat) {c : List Nat} {p q : Option Nat},
    Linked L.heap p c → find_node_loop L k p = .ok q → q = none ∨ ∃ x ∈ c, q = some x
  | 0, c, p, q, h, hr => by
    rw [find_node_loop] at hr
    cases hr
    cases c with
    | nil => exact Or.inl h
    | cons a c => exact Or.inr ⟨a, List.mem_cons_self _ _, h.1⟩
  | k + 1, c, p, q, h, hr => by
    cases p with
    | none => simp [find_node_loop, deref] at hr
    | some a =>
      obtain ⟨c2, rfl⟩ := h.cons_of_some
      obtain ⟨_, n, hn, hl⟩ := h
      rw [find_node_loop, deref_of_lookup hn] at hr
      rcases find_node_loop_mem k hl hr with e | ⟨x, hx, e⟩
      · exact Or.inl e
      · exact Or.inr ⟨x, List.mem_cons_of_mem _ hx, e⟩

/-- The call of `insert` strictly inside the sequence, when it completes: the located node had room,
and only that node has changed, its count and `size_` growing by 1. On a full located
node the call reads `values[Size]` and does not complete. -/
theorem insert_middle_inv {Size : Nat} {L L2 : Lariat T} {c : List Nat} {index : Int} {v : T}
    (h : Inv Size L c) (hS : 1 ≤ Size) (h0 : 0 < index) (h1 : index < L.size_)
    (hrun : insert Size L index v = .ok L2) :
    Inv Size L2 c ∧ L2.size_ = L.size_ + 1 ∧ L2.nodecount_ = L.nodecount_ := by
  have c1 : ¬ (index < 0 ∨ index > L.size_) := by omega
  have c2 : ¬ (index = L.size_) := by omega
  have c3 : ¬ (index = 0) := by omega
  have c4 : ¬ (L.asize_ = 0) := by rw [h.asize]; omega
  rw [insert, if_neg c1, if_neg c2, if_neg c3, find_node, if_neg c4] at hrun
  cases hf : find_node_loop L (Int.tdiv (index - 1) L.asize_).toNat L.head_ with
  | error e => rw [hf] at hrun; cases hrun
  | ok q =>
    rw [hf] at hrun
    dsimp only at hrun
    rw [if_neg c4] at hrun
    rcases find_node_loop_mem _ h.linked hf with rfl | ⟨x, hx, rfl⟩
    · simp [deref] at hrun
    · obtain ⟨ln, hln, hc1, hc2, hlen⟩ := h.occ x hx
      rw [deref_of_lookup hln] at hrun
      dsimp only at hrun
      have hind : 0 ≤ Int.tmod (index - 1) L.asize_ ∧
          Int.tmod (index - 1) L.asize_ < (Size : Int) := by
        rw [h.asize, Int.tmod_eq_emod (by omega) (by omega)]
        exact ⟨Int.emod_nonneg _ (by omega), Int.emod_lt_of_pos _ (by omega)⟩
      by_cases hfull : ln.count = L.asize_
      · exfalso
        obtain ⟨L1, hsplit, _, ha1, _, _, _, _, _, _, _⟩ :=
          split_spec Size hln (Linked.succ_of_mem hln h.linked h.nodup hx)
        have hbad : ¬ (0 ≤ ln.count ∧ ln.count < (Size : Int)) := by
          rw [hfull, h.asize]; omega
        rw [if_pos hfull, hsplit] at hrun
        dsimp only at hrun
        rw [deref_of_lookup ha1] at hrun
        dsimp only at hrun
        rw [readValue_of_lookup ha1, if_neg hbad] at hrun
        cases hrun
      · have hroom : ln.count < Size := by
          rw [h.asize] at hfull
          omega
        rw [if_neg hfull] at hrun
        dsimp only at hrun
        rw [shift_up_of_lookup hln _ hind.1 hroom] at hrun
        dsimp only at hrun
        have hl1 := set_lookup hln { ln with
            values := shiftVals ln.values
              (ln.count - Int.tmod (index - 1) L.asize_).toNat (ln.count - 1) } x
        rw [if_pos rfl] at hl1
        rw [add_value_of_lookup (L := ⟨_, L.head_, L.tail_, L.size_, L.nodecount_, L.asize_⟩)
          hl1 _ _ hind] at hrun
        dsimp only at hrun
        rw [List.set_set] at hrun
        cases hrun
        exact ⟨h.update hx hln rfl rfl hroom (by simp [shiftVals_length, hlen]), rfl, rfl⟩

/-! ## Well-formed containers used as examples -/

theorem wellFormed_empty (Size : Nat) : WellFormed Size (empty Size : Lariat T) :=
  ⟨[], ⟨rfl, List.nodup_nil, rfl, fun _ hx => by simp at hx, rfl, rfl⟩⟩

theorem wellFormed_fullOne : WellFormed 2 fullOne :=
  ⟨[0], ⟨⟨rfl, _, rfl, rfl⟩, by simp, rfl,
    fun x hx => by
      rw [List.mem_singleton] at hx
      subst hx
      exact ⟨_, rfl, by decide, by decide, rfl⟩,
    rfl, rfl⟩⟩

theorem wellFormed_roomOne : WellFormed 4 roomOne :=
  ⟨[0], ⟨⟨rfl, _, rfl, rfl⟩, by simp, rfl,
    fun x hx => by
      rw [List.mem_singleton] at hx
      subst hx
      exact ⟨_, rfl, by decide, by decide, rfl⟩,
    rfl, rfl⟩⟩

/-! ## Completed calls keep the invariants -/

/-- A completed `push_front` keeps the data-model invariants. -/
theorem push_front_preserves {Size : Nat} (hS : 1 ≤ Size) {L L2 : Lariat T}
    (hwf : WellFormed Size L) {v : T} (hrun : push_front Size L v = .ok L2) :
    WellFormed Size L2 ∧ L2.size_ = L.size_ + 1 := by
  obtain ⟨c, h⟩ := hwf
  cases c with
  | nil =>
    obtain ⟨L3, hrun3, hinv, _, hsize, _, _⟩ := push_front_empty h (by omega) v
    rw [hrun3] at hrun
    cases hrun
    exact ⟨⟨_, hinv⟩, hsize⟩
  | cons a rest =>
    obtain ⟨n, hn, _, hle, _⟩ := h.occ a (List.mem_cons_self _ _)
    by_cases hfull : n.count = Size
    · by_cases hS2 : 2 ≤ Size
      · obtain ⟨L3, hrun3, hinv, _, _, hsize, _, _⟩ := push_front_full h hn hfull hS2 v
        rw [hrun3] at hrun
        cases hrun
        exact ⟨⟨_, hinv⟩, hsize⟩
      · have : Size = 1 := by omega
        subst this
        rw [push_front_full_one_halts h v] at hrun
        cases hrun
    · obtain ⟨L3, hrun3, hinv, _, _, hsize, _, _⟩ := push_front_room h hn (by omega) v
      rw [hrun3] at hrun
      cases hrun
      exact ⟨⟨_, hinv⟩, hsize⟩

/-- A completed `push_back` keeps the data-model invariants. -/
theorem push_back_preserves {Size : Nat} (hS : 1 ≤ Size) {L L2 : Lariat T}
    (hwf : WellFormed Size L) {v : T} (hrun : push_back Size L v = .ok L2) :
    WellFormed Size L2 ∧ L2.size_ = L.size_ + 1 := by
  obtain ⟨c, h⟩ := hwf
  by_cases hc : c = []
  · subst hc
    obtain ⟨hh, ht, _⟩ := h.nil_fields
    rw [push_back_eq_push_front_of_null Size hh ht] at hrun
    exact push_front_preserves hS ⟨_, h⟩ hrun
  · obtain ⟨pre, b, rfl⟩ := exists_concat_of_ne_nil c hc
    obtain ⟨t, ht, _, hle, _⟩ := h.occ b (by simp)
    by_cases hfull : t.count = Size
    · by_cases hS2 : 2 ≤ Size
      · rw [push_back_full_halts h ht hfull hS2 v] at hrun
        cases hrun
      · have : Size = 1 := by omega
        subst this
        obtain ⟨L3, hrun3, hinv, _, _, hsize, _⟩ := push_back_full_one h ht v
        rw [hrun3] at hrun
        cases hrun
        exact ⟨⟨_, hinv⟩, hsize⟩
    · obtain ⟨L3, hrun3, hinv, _, _, hsize, _, _⟩ := push_back_room h ht (by omega) v
      rw [hrun3] at hrun
      cases hrun
      exact ⟨⟨_, hinv⟩, hsize⟩

/-- A completed `insert` keeps the data-model invariants. -/
theorem insert_preserves {Size : Nat} (hS : 1 ≤ Size) {L L2 : Lariat T}
    (hwf : WellFormed Size L) {index : Int} {v : T} (hrun : insert Size L index v = .ok L2) :
    WellFormed Size L2 := by
  by_cases c1 : index < 0 ∨ index > L.size_
  · rw [insert, if_pos c1] at hrun
    cases hrun
    exact hwf
  · by_cases c2 : index = L.size_
    · rw [insert, if_neg c1, if_pos c2] at hrun
      exact (push_back_preserves hS hwf hrun).1
    · by_cases c3 : index = 0
      · rw [insert, if_neg c1, if_neg c2, if_pos c3] at hrun
        exact (push_front_preserves hS hwf hrun).1
      · obtain ⟨c, h⟩ := hwf
        exact ⟨c, (insert_middle_inv h hS (by omega) (by omega) hrun).1⟩

/-- Every container built from the fresh one by completed calls satisfies the data-model
invariants. -/
theorem wellFormed_of_reachable {Size : Nat} (hS : 1 ≤ Size) {L : Lariat T}
    (hr : Reachable Size L) : WellFormed Size L := by
  induction hr with
  | fresh => exact wellFormed_empty Size
  | by_push_back v _ hrun ih => exact (push_back_preserves hS ih hrun).1
  | by_push_front v _ hrun ih => exact (push_front_preserves hS ih hrun).1
  | by_insert index v _ hrun ih => exact insert_preserves hS ih hrun

theorem reachable_roomOne : Reachable 4 roomOne :=
  Reachable.by_push_back 3
    (Reachable.by_push_back 2 (Reachable.by_push_back 1 Reachable.fresh rfl) rfl) rfl

/-! ## Splitting a node: `split` followed by `move_half_values` -/

/-- The result of `split(node)` followed by `move_half_values(node, newNode)` on an allocated
node whose successor, if it has one, is another allocated node: the node keeps its array
and loses `Size / 2` from its count, the new node holds what the loop has moved and has
count `Size / 2`; `size_` is unchanged and `nodecount_` has grown by 1. -/
theorem split_then_move_spec (Size : Nat) {L : Lariat T} {a : Nat} {n : LNode T}
    (hn : L.heap[a]? = some n)
    (ht : ∀ t, n.next = some t → t ≠ a ∧ ∃ tn, L.heap[t]? = some tn)
    (has : L.asize_ = Size) :
    ∃ L2, split_then_move Size L (some a) = .ok (L2, some L.heap.length) ∧
      L2.heap[a]? = some { n with
          next := some L.heap.length, count := n.count - (Size / 2 : Nat) } ∧
      L2.heap[L.heap.length]? = some { (freshNode Size : LNode T) with
          next := n.next,
          count := (Size / 2 : Nat),
          values := moveVals Size n.values (List.replicate Size none) (Size / 2) 0 } ∧
      L2.size_ = L.size_ ∧ L2.nodecount_ = L.nodecount_ + 1 := by
  obtain ⟨L1, hsplit, hlen1, ha1, hm1, _, _, _, hsize1, hnc1, has1⟩ := split_spec Size hn ht
  have hlt : a < L.heap.length := (List.getElem?_eq_some.1 hn).1
  have hne : a ≠ L.heap.length := by omega
  have hk : (Int.tdiv L1.asize_ 2).toNat = Size / 2 := by
    rw [has1, has, tdiv_two]; omega
  have hmove := move_half_values_loop_eq Size a L.heap.length hne (Size / 2) 0 L1 _ _
    (has1.trans has) ha1 hm1 (by omega)
  rw [Nat.cast_zero] at hmove
  rw [split_then_move, hsplit]
  dsimp only
  rw [move_half_values, hk, hmove]
  refine ⟨_, rfl, ?_, ?_, hsize1, hnc1⟩
  · dsimp only
    rw [List.getElem?_set, if_pos rfl, if_pos (by simp; omega)]
  · dsimp only
    rw [List.getElem?_set, if_neg hne, List.getElem?_set, if_pos rfl, if_pos (by omega)]
    simp [freshNode]

/-- In a well-formed container a full node of the chain can be split. -/
theorem Inv.split_then_move_run {Size : Nat} {L : Lariat T} {c : List Nat} {a : Nat}
    {n : LNode T} (h : Inv Size L c) (ha : a ∈ c) (hn : L.heap[a]? = some n) :
    ∃ L2, Lariat.split_then_move Size L (some a) = .ok (L2, some L.heap.length) ∧
      L2.heap[a]? = some { n with
          next := some L.heap.length, count := n.count - (Size / 2 : Nat) } ∧
      L2.heap[L.heap.length]? = some { (freshNode Size : LNode T) with
          next := n.next,
          count := (Size / 2 : Nat),
          values := moveVals Size n.values (List.replicate Size none) (Size / 2) 0 } ∧
      L2.size_ = L.size_ ∧ L2.nodecount_ = L.nodecount_ + 1 :=
  split_then_move_spec Size hn (Linked.succ_of_mem hn h.linked h.nodup ha) h.asize

theorem inv_fullThree : Inv 3 fullThree [0] :=
  ⟨⟨rfl, _, rfl, rfl⟩, by simp, rfl,
    fun x hx => by
      rw [List.mem_singleton] at hx
      subst hx
      exact ⟨_, rfl, by decide, by decide, rfl⟩,
    rfl, rfl⟩

/-! ## The walk of `find_node` -/

theorem sum_map_le_length_mul (f : Nat → Int) (S : Int) : ∀ (c : List Nat),
    (∀ a ∈ c, f a ≤ S) → (c.map f).sum ≤ (c.length : Int) * S
  | [], _ => by simp
  | a :: c, h => by
    have h1 := h a (List.mem_cons_self _ _)
    have h2 := sum_map_le_length_mul f S c (fun x hx => h x (List.mem_cons_of_mem _ hx))
    simp only [List.length_cons, List.map_cons, List.sum_cons]
    push_cast
    rw [add_mul, one_mul]
    omega

/-- Walking `k` links along a chain with more than `k` nodes dereferences no null pointer
and ends at the node number `k` of the chain. -/
theorem find_node_loop_get {L : Lariat T} : ∀ (k : Nat) {ch : List Nat} {p : Option Nat},
    Linked L.heap p ch → k < ch.length →
    ∃ x, ch[k]? = some x ∧ find_node_loop L k p = .ok (some x)
  | 0, [], _, _, hk => by simp at hk
  | 0, a :: ch, _, h, _ => by
    obtain ⟨hp, _⟩ := h
    exact ⟨a, by simp, by rw [find_node_loop, hp]⟩
  | k + 1, [], _, _, hk => by simp at hk
  | k + 1, a :: ch, _, h, hk => by
    obtain ⟨hp, n, hn, hl⟩ := h
    obtain ⟨x, hx, hrun⟩ := find_node_loop_get k hl (by simpa using hk)
    refine ⟨x, by simpa using hx, ?_⟩
    rw [hp, find_node_loop, deref_of_lookup hn]
    exact hrun

theorem linked_fourNodes : Linked fourNodes.heap fourNodes.head_ [0, 3, 2, 1] :=
  ⟨rfl, _, rfl, rfl, _, rfl, rfl, _, rfl, rfl, _, rfl, rfl⟩

theorem reachable_fourNodes : push_front_all 2 (empty 2) [1, 2, 3, 4, 5] = .ok fourNodes :=
  rfl

end Lariat

/-! ## The claims -/

namespace Lariat

variable {T : Type}

/-- C1: for every capacity `Size ≥ 2`, every container that satisfies the data-model
invariants and every value `v`, `push_front(v)` returns normally (no null or wild pointer,
no array offset outside `[0, Size)`), the logical sequence afterwards is `v` followed by
the previous logical sequence, `size_` has grown by exactly 1, and the invariants hold
again. The three branches (empty chain, head with room, full head) are all covered. -/
theorem push_front_correct (Size : Nat) (hS : 2 ≤ Size) (L : Lariat T)
    (hwf : WellFormed Size L) (v : T) :
    ∃ L2, push_front Size L v = .ok L2 ∧ toList L2 = some v :: toList L ∧
      L2.size_ = L.size_ + 1 ∧ WellFormed Size L2 := by
  obtain ⟨c, h⟩ := hwf
  rw [toList_of_inv h]
  cases c with
  | nil =>
    obtain ⟨L2, hrun, hinv, hitems, hsize, _, _⟩ := push_front_empty h (by omega) v
    refine ⟨L2, hrun, ?_, hsize, _, hinv⟩
    rw [toList_of_inv hinv]
    simp [hitems]
  | cons a rest =>
    obtain ⟨n, hn, _, hle, _⟩ := h.occ a (List.mem_cons_self _ _)
    obtain ⟨harest, _⟩ := List.nodup_cons.1 h.nodup
    by_cases hfull : n.count = Size
    · obtain ⟨L2, hrun, hinv, hitems, hrest, hsize, _, _⟩ := push_front_full h hn hfull hS v
      refine ⟨L2, hrun, ?_, hsize, _, hinv⟩
      rw [toList_of_inv hinv]
      simp only [List.flatMap_cons, ← List.append_assoc, hitems, List.flatMap_congr hrest,
        List.cons_append]
    · obtain ⟨L2, hrun, hinv, hitems, hrest, hsize, _, _⟩ :=
        push_front_room h hn (by omega) v
      refine ⟨L2, hrun, ?_, hsize, _, hinv⟩
      rw [toList_of_inv hinv]
      have hr : ∀ x ∈ rest, itemsAt L2.heap x = itemsAt L.heap x :=
        fun x hx => hrest x (fun e => harest (e ▸ hx))
      simp only [List.flatMap_cons, hitems, List.flatMap_congr hr, List.cons_append]

/-- C1, at a container of capacity 2 whose only node is full (the split branch). -/
theorem push_front_correct_witness :
    2 ≤ 2 ∧ WellFormed 2 fullOne ∧
      ∃ L2, push_front 2 fullOne 7 = .ok L2 ∧ toList L2 = some 7 :: toList fullOne ∧
        L2.size_ = fullOne.size_ + 1 ∧ WellFormed 2 L2 :=
  ⟨le_refl 2, wellFormed_fullOne, push_front_correct 2 (le_refl 2) fullOne wellFormed_fullOne 7⟩

/-- C2: with capacity 4 the fifth `push_back` on a fresh container does not return: the
tail is full, `split` leaves the `prev` link of the new node null, and
`move_half_values(tail_->prev, tail_)` reads through that null link. The first four calls
return normally and store 1, 2, 3, 4; pushing 1 .. 10 ends the same way. -/
theorem push_back_fifth_halts :
    (push_back_all 4 (empty 4) [1, 2, 3, 4]).map toList =
        .ok [some 1, some 2, some 3, some 4] ∧
      push_back_all 4 (empty 4) [1, 2, 3, 4, 5] = .error .nullDeref ∧
      push_back_all 4 (empty 4) [1, 2, 3, 4, 5, 6, 7, 8, 9, 10] = .error .nullDeref :=
  ⟨rfl, rfl, rfl⟩

/-- C3: on a container that satisfies the data-model invariants and whose chain is empty or
whose tail node is not full, `push_back(v)` returns normally; the logical sequence
afterwards is the previous one with `v` appended, so every element stored before is still
at its logical index; `size_` has grown by exactly 1; exactly one node was created if the
chain was empty and none otherwise; and the invariants hold again. (`Size ≥ 1` is what the
array type `T values[Size]` requires.) -/
theorem push_back_appends (Size : Nat) (hS : 1 ≤ Size) (L : Lariat T)
    (hwf : WellFormed Size L)
    (hroom : L.head_ = none ∨
      ∃ b t, L.tail_ = some b ∧ L.heap[b]? = some t ∧ t.count < Size) (v : T) :
    ∃ L2, push_back Size L v = .ok L2 ∧ toList L2 = toList L ++ [some v] ∧
      (∀ i, i < (toList L).length → (toList L2)[i]? = (toList L)[i]?) ∧
      L2.size_ = L.size_ + 1 ∧
      L2.nodecount_ = L.nodecount_ + (if L.head_ = none then 1 else 0) ∧
      L2.heap.length = L.heap.length + (if L.head_ = none then 1 else 0) ∧
      WellFormed Size L2 := by
  obtain ⟨c, h⟩ := hwf
  have key : ∃ L2, push_back Size L v = .ok L2 ∧ toList L2 = toList L ++ [some v] ∧
      L2.size_ = L.size_ + 1 ∧
      L2.nodecount_ = L.nodecount_ + (if L.head_ = none then 1 else 0) ∧
      L2.heap.length = L.heap.length + (if L.head_ = none then 1 else 0) ∧
      WellFormed Size L2 := by
    rw [toList_of_inv h]
    by_cases hc : c = []
    · subst hc
      obtain ⟨hh, ht, _⟩ := h.nil_fields
      obtain ⟨L2, hrun, hinv, hitems, hsize, hnc, hlen⟩ := push_front_empty h (by omega) v
      refine ⟨L2, ?_, ?_, hsize, ?_, ?_, _, hinv⟩
      · rw [push_back_eq_push_front_of_null Size hh ht, hrun]
      · rw [toList_of_inv hinv]
        simp [hitems]
      · rw [if_pos hh, hnc]
      · rw [if_pos hh, hlen]
    · obtain ⟨pre, b, rfl⟩ := exists_concat_of_ne_nil c hc
      have hhead : ¬ (L.head_ = none) := fun e => h.head_ne_none ⟨e, by
        have := h.linked
        cases pre with
        | nil => exact absurd (e.symm.trans this.1) (by simp)
        | cons x pre => exact absurd (e.symm.trans this.1) (by simp)⟩
      obtain hnone | ⟨b2, t, htail, ht, hlt⟩ := hroom
      · exact absurd hnone hhead
      · have hb : b2 = b := by
          have := h.tail_eq
          rw [htail] at this
          exact Option.some.inj this
        subst hb
        obtain ⟨L2, hrun, hinv, hitems, hrest, hsize, hnc, hlen⟩ := push_back_room h ht hlt v
        refine ⟨L2, hrun, ?_, hsize, ?_, ?_, _, hinv⟩
        · rw [toList_of_inv hinv]
          have hnd := h.nodup
          rw [List.nodup_append] at hnd
          have hr : ∀ x ∈ pre, itemsAt L2.heap x = itemsAt L.heap x := by
            intro x hx
            refine hrest x (fun e => ?_)
            subst e
            exact hnd.2.2 hx (List.mem_singleton_self _)
          simp only [List.flatMap_append, List.flatMap_cons, List.flatMap_nil,
            List.append_nil, hitems, List.flatMap_congr hr, List.append_assoc]
        · rw [if_neg hhead, hnc]; simp
        · rw [if_neg hhead, hlen]; simp
  obtain ⟨L2, hrun, hseq, hrest⟩ := key
  refine ⟨L2, hrun, hseq, ?_, hrest⟩
  intro i hi
  rw [hseq, List.getElem?_append_left hi]

/-- C3, at the container holding 1, 2, 3 in one node of capacity 4. -/
theorem push_back_appends_witness :
    1 ≤ 4 ∧ WellFormed 4 roomOne ∧
      (roomOne.head_ = none ∨
        ∃ b t, roomOne.tail_ = some b ∧ roomOne.heap[b]? = some t ∧ t.count < (4 : Nat)) ∧
      ∃ L2, push_back 4 roomOne 9 = .ok L2 ∧ toList L2 = toList roomOne ++ [some 9] ∧
        (∀ i, i < (toList roomOne).length → (toList L2)[i]? = (toList roomOne)[i]?) ∧
        L2.size_ = roomOne.size_ + 1 ∧
        L2.nodecount_ = roomOne.nodecount_ + (if roomOne.head_ = none then 1 else 0) ∧
        L2.heap.length = roomOne.heap.length + (if roomOne.head_ = none then 1 else 0) ∧
        WellFormed 4 L2 :=
  ⟨by decide, wellFormed_roomOne, Or.inr ⟨0, _, rfl, rfl, by decide⟩,
    push_back_appends 4 (by decide) roomOne wellFormed_roomOne
      (Or.inr ⟨0, _, rfl, rfl, by decide⟩) 9⟩

/-- C4: three calls of `push_back` on a fresh container of capacity 4 give the sequence
1, 2, 3 in one node with room; `insert(1, 9)` then returns normally with the sequence
9, 1, 2, 3: the new value is at logical position 0, in front of the element that was at
position 0, not between the elements at positions 0 and 1. -/
theorem insert_middle_off_by_one :
    push_back_all 4 (empty 4) [1, 2, 3] = .ok roomOne ∧
      toList roomOne = [some 1, some 2, some 3] ∧
      (insert 4 roomOne 1 9).map toList = .ok [some 9, some 1, some 2, some 3] :=
  ⟨rfl, rfl, rfl⟩

/-- C5: for every container, `insert` with the index -1 or the index `size_ + 1` returns
normally and leaves the container as it was: no `E_BAD_INDEX` reaches the caller. -/
theorem insert_bad_index_returns (Size : Nat) (L : Lariat T) (v : T) :
    insert Size L (-1) v = .ok L ∧ insert Size L (L.size_ + 1) v = .ok L := by
  constructor
  · rw [insert, if_pos (Or.inl (by decide))]
  · rw [insert, if_pos (Or.inr (by omega))]

/-- C7: on every container that satisfies the data-model invariants, `insert(0, v)` gives
exactly the result of `push_front(v)`. On the empty container `insert` dispatches to
`push_back`, which there does the same as `push_front`. -/
theorem insert_zero_eq_push_front (Size : Nat) (L : Lariat T) (hwf : WellFormed Size L)
    (v : T) : insert Size L 0 v = push_front Size L v := by
  obtain ⟨c, h⟩ := hwf
  cases c with
  | nil =>
    obtain ⟨hh, ht, hsz⟩ := h.nil_fields
    have h1 : ¬ ((0 : Int) < 0 ∨ (0 : Int) > L.size_) := by omega
    rw [insert, if_neg h1, if_pos hsz.symm, push_back_eq_push_front_of_null Size hh ht]
  | cons a rest =>
    have hpos := h.size_pos
    have h1 : ¬ ((0 : Int) < 0 ∨ (0 : Int) > L.size_) := by omega
    have h2 : ¬ ((0 : Int) = L.size_) := by omega
    rw [insert, if_neg h1, if_neg h2, if_pos rfl]

/-- C7, at the container of capacity 2 whose only node is full. -/
theorem insert_zero_eq_push_front_witness :
    WellFormed 2 fullOne ∧ insert 2 fullOne 0 7 = push_front 2 fullOne 7 :=
  ⟨wellFormed_fullOne, insert_zero_eq_push_front 2 fullOne wellFormed_fullOne 7⟩

/-- C8: in the freshly constructed container and in every container obtained from it by
calls of `insert`, `push_back` and `push_front` that complete, `size_` equals the sum of
`count` over the nodes reachable from `head_`. (`Size ≥ 1` is what the array type
`T values[Size]` requires.) -/
theorem size_eq_countSum_of_reachable (Size : Nat) (hS : 1 ≤ Size) (L : Lariat T)
    (hr : Reachable Size L) : L.size_ = countSum L := by
  obtain ⟨c, h⟩ := wellFormed_of_reachable hS hr
  rw [countSum_of_inv h, h.total]

/-- C8, at the container built by `push_back(1)`, `push_back(2)`, `push_back(3)` with
capacity 4. -/
theorem size_eq_countSum_of_reachable_witness :
    1 ≤ 4 ∧ Reachable 4 roomOne ∧ roomOne.size_ = countSum roomOne :=
  ⟨by decide, reachable_roomOne,
    size_eq_countSum_of_reachable 4 (by decide) roomOne reachable_roomOne⟩

/-- C9: with capacity 1, `push_front` on a fresh container returns normally and stores the
value; the next `push_front` finds the head full, `split` and `move_half_values` move
nothing (1 / 2 = 0), and `shift_up` then assigns `values[1]`, outside the array. -/
theorem push_front_capacity_one_overflows :
    (push_front 1 (empty 1) 5).map toList = .ok [some 5] ∧
      (push_front 1 (empty 1) 5).bind (fun L => push_front 1 L 6) = .error .outOfRange :=
  ⟨rfl, rfl⟩

/-- C10: after one `push_back` on a fresh container the cached count `size_` and the sum of
the node counts are 1, and `size()` is 0. -/
theorem size_returns_zero :
    (push_back 4 (empty 4) 1).map (fun L => (L.size_, countSum L, size L)) = .ok (1, 1, 0) :=
  rfl

/-- C11: on the container holding 1, 2, 3 (built by three calls of `push_back`), `find(2)`
returns 0 although the first element equal to 2 is at logical index 1; `find(7)`, for a
value that is absent, returns 0 as well, while the element count `size_` is 3. -/
theorem find_returns_zero :
    push_back_all 4 (empty 4) [1, 2, 3] = .ok roomOne ∧
      toList roomOne = [some 1, some 2, some 3] ∧
      (toList roomOne).indexOf (some 2) = 1 ∧ find roomOne 2 = 0 ∧
      find roomOne 7 = 0 ∧ roomOne.size_ = 3 :=
  ⟨rfl, rfl, rfl, rfl, rfl, rfl⟩

/-- C12: on the container holding 1, 2, 3, `erase(0)` returns with the logical sequence
still 1, 2, 3 and `size_` still 3: nothing has been removed. -/
theorem erase_removes_nothing :
    toList roomOne = [some 1, some 2, some 3] ∧
      toList (erase roomOne 0) = [some 1, some 2, some 3] ∧ (erase roomOne 0).size_ = 3 :=
  ⟨rfl, rfl, rfl⟩

/-- C13: five calls of `push_front` on a fresh container of capacity 4 give a chain of two
nodes with counts 3 and 2; after `compact()` the counts are still 3 and 2, so the first
node, which is not the last, does not hold 4 elements. -/
theorem compact_packs_nothing :
    push_front_all 4 (empty 4) [1, 2, 3, 4, 5] = .ok twoNodes ∧
      twoNodes.asize_ = 4 ∧
      (nodes (compact twoNodes)).map (fun n => n.count) = [3, 2] :=
  ⟨rfl, rfl, rfl⟩

/-- C14: whatever values the uninitialised members take, the copy of the container holding
1, 2, 3 has null `head_` and `tail_`: its logical sequence is empty, and its `size_` is the
indeterminate value, not a copy of the source's count. -/
theorem copy_is_empty (size0 nodecount0 asize0 : Int) :
    toList roomOne = [some 1, some 2, some 3] ∧
      toList (copy size0 nodecount0 asize0 roomOne) = [] ∧
      countSum (copy size0 nodecount0 asize0 roomOne) = 0 ∧
      (copy size0 nodecount0 asize0 roomOne).size_ = size0 :=
  ⟨rfl, rfl, rfl, rfl⟩

/-- C15: in the two-node container built by five calls of `push_front` with capacity 4
(sequence 5, 4, 3, 2, 1, counts 3 and 2) logical position 3 lies in the second node, at
offset 0, as the spec's locator finds; `find_node(3)` returns the head node, whose count
is 3, so that 3 is not an offset of a valid element in it. -/
theorem find_node_wrong_node :
    push_front_all 4 (empty 4) [1, 2, 3, 4, 5] = .ok twoNodes ∧
      toList twoNodes = [some 5, some 4, some 3, some 2, some 1] ∧
      locate twoNodes 3 = some (1, 0) ∧
      find_node twoNodes 3 = .ok (some 0) ∧ countAt twoNodes.heap 0 = 3 :=
  ⟨rfl, rfl, rfl, rfl, rfl⟩

/-- C16: with capacity 4, after `push_back` of 1, 2, 3, 4 the only node is full;
`insert(2, 9)` locates that node, splits it and then reads `values[count]` with
`count = 4`, one past the array: the call does not return normally. -/
theorem insert_full_node_reads_past_end :
    (push_back_all 4 (empty 4) [1, 2, 3, 4]).map toList =
        .ok [some 1, some 2, some 3, some 4] ∧
      (push_back_all 4 (empty 4) [1, 2, 3, 4]).bind (fun L => insert 4 L 2 9) =
        .error .outOfRange :=
  ⟨rfl, rfl⟩

/-- C17: in the two-node chain 0 → 1 that `push_front(7)` makes of the container of capacity
2 holding 1, 2, `split` of the head returns the new node 2 with `head.next = 2`,
`new.next = 1` and `old successor.prev = 2`, but the `prev` link of the new node is null,
not the head. -/
theorem split_leaves_prev_null :
    (push_front 2 fullOne 7).bind (fun L => (split 2 L L.head_).map (fun r =>
      (L.head_, r.2, (r.1.heap[0]?).map (fun n => n.next),
        (r.1.heap[2]?).map (fun n => (n.prev, n.next)),
        (r.1.heap[1]?).map (fun n => n.prev)))) =
      .ok (some 0, some 2, some (some 2), some (none, some 1), some (some 2)) :=
  rfl

/-- C18: in a container that satisfies the data-model invariants, splitting a full node `n`
of the chain (`split(n)` followed by `move_half_values(n, m)` into the new node `m`)
returns normally; afterwards `n.count + m.count` is the capacity, the valid elements of `n`
followed by those of `m` are the elements `n` held before, in the same order, `size_` is
unchanged and `nodecount_` has grown by exactly 1. -/
theorem split_postcondition (Size : Nat) (L : Lariat T) (c : List Nat) (h : Inv Size L c)
    (a : Nat) (n : LNode T) (ha : a ∈ c) (hn : L.heap[a]? = some n)
    (hfull : n.count = Size) :
    ∃ L2 na nm, split_then_move Size L (some a) = .ok (L2, some L.heap.length) ∧
      L2.heap[a]? = some na ∧ L2.heap[L.heap.length]? = some nm ∧
      na.count + nm.count = Size ∧
      LNode.items na ++ LNode.items nm = LNode.items n ∧
      L2.size_ = L.size_ ∧ L2.nodecount_ = L.nodecount_ + 1 := by
  obtain ⟨_, _, hlen⟩ := h.node_count ha hn
  obtain ⟨L2, hrun, h2a, h2m, hsize, hnc⟩ := h.split_then_move_run ha hn
  refine ⟨L2, _, _, hrun, h2a, h2m, ?_, ?_, hsize, hnc⟩
  · dsimp only
    omega
  · have e1 : (n.count - ((Size / 2 : Nat) : Int)).toNat = Size - Size / 2 := by omega
    have e2 : (((Size / 2 : Nat) : Int)).toNat = Size / 2 := by omega
    have e3 : n.count.toNat = Size := by omega
    simp only [LNode.items, e1, e2, e3]
    rw [moveVals_take Size n.values _ hlen (by simp), List.take_append_drop,
      List.take_of_length_le (by omega)]

/-- C18, at the container of capacity 3 whose only node is full. -/
theorem split_postcondition_witness :
    Inv 3 fullThree [0] ∧ 0 ∈ [0] ∧
      fullThree.heap[0]? = some
        { next := none, prev := none, count := 3, values := [some 1, some 2, some 3] } ∧
      ∃ L2 na nm, split_then_move 3 fullThree (some 0) = .ok (L2, some fullThree.heap.length) ∧
        L2.heap[0]? = some na ∧ L2.heap[fullThree.heap.length]? = some nm ∧
        na.count + nm.count = ((3 : Nat) : Int) ∧
        LNode.items na ++ LNode.items nm =
          LNode.items { next := none, prev := none, count := 3,
                        values := [some 1, some 2, some 3] } ∧
        L2.size_ = fullThree.size_ ∧ L2.nodecount_ = fullThree.nodecount_ + 1 :=
  ⟨inv_fullThree, by simp, rfl,
    split_postcondition 3 fullThree [0] inv_fullThree 0 _ (by simp) rfl rfl⟩

/-- C19 as stated fails for an odd capacity: with capacity 3, splitting the full node that
holds 1, 2, 3 does not leave the new node with `3 - 3 / 2 = 2` elements and the old one
with `3 / 2 = 1`. -/
theorem split_not_upper_half_of_three :
    ¬ ∃ L2 na nm, split_then_move 3 fullThree (some 0) = .ok (L2, some 1) ∧
      L2.heap[0]? = some na ∧ L2.heap[1]? = some nm ∧
      nm.count = ((3 - 3 / 2 : Nat) : Int) ∧ na.count = ((3 / 2 : Nat) : Int) := by
  rintro ⟨L2, na, nm, hrun, _, hm, h1, _⟩
  have e : (split_then_move 3 fullThree (some 0)).map (fun r => countAt r.1.heap 1) =
      .ok 1 := rfl
  rw [hrun] at e
  simp only [Except.map, countAt, hm, h1] at e
  cases e

/-- C19, amended: in a container that satisfies the data-model invariants, splitting a full
node `n` of the chain moves exactly the last `Size / 2` elements of `n` (integer division),
in order, into the new node starting at its offset 0; the new node's count is `Size / 2`
and `n` keeps its array and the count `Size - Size / 2`. -/
theorem split_moves_floor_half (Size : Nat) (L : Lariat T) (c : List Nat)
    (h : Inv Size L c) (a : Nat) (n : LNode T) (ha : a ∈ c) (hn : L.heap[a]? = some n)
    (hfull : n.count = Size) :
    ∃ L2 na nm, split_then_move Size L (some a) = .ok (L2, some L.heap.length) ∧
      L2.heap[a]? = some na ∧ L2.heap[L.heap.length]? = some nm ∧
      nm.count = ((Size / 2 : Nat) : Int) ∧ na.count = ((Size - Size / 2 : Nat) : Int) ∧
      nm.values.take (Size / 2) = n.values.drop (Size - Size / 2) ∧
      (n.values.drop (Size - Size / 2)).length = Size / 2 ∧
      na.values = n.values := by
  obtain ⟨_, _, hlen⟩ := h.node_count ha hn
  obtain ⟨L2, hrun, h2a, h2m, _, _⟩ := h.split_then_move_run ha hn
  refine ⟨L2, _, _, hrun, h2a, h2m, rfl, ?_, ?_, ?_, rfl⟩
  · dsimp only
    omega
  · exact moveVals_take Size n.values _ hlen (by simp)
  · rw [List.length_drop, hlen]
    omega

/-- C19 amended, at the container of capacity 3 whose only node is full. -/
theorem split_moves_floor_half_witness :
    Inv 3 fullThree [0] ∧ 0 ∈ [0] ∧
      fullThree.heap[0]? = some
        { next := none, prev := none, count := 3, values := [some 1, some 2, some 3] } ∧
      ∃ L2 na nm, split_then_move 3 fullThree (some 0) = .ok (L2, some fullThree.heap.length) ∧
        L2.heap[0]? = some na ∧ L2.heap[fullThree.heap.length]? = some nm ∧
        nm.count = ((3 / 2 : Nat) : Int) ∧ na.count = ((3 - 3 / 2 : Nat) : Int) ∧
        nm.values.take (3 / 2) = [some 1, some 2, some 3].drop (3 - 3 / 2) ∧
        ([some 1, some 2, some 3].drop (3 - 3 / 2)).length = 3 / 2 ∧
        na.values = [some 1, some 2, some 3] :=
  ⟨inv_fullThree, by simp, rfl,
    split_moves_floor_half 3 fullThree [0] inv_fullThree 0 _ (by simp) rfl rfl⟩

/-- C20: in a container of capacity `Size ≥ 1` whose chain runs from `head_` to null, in
which every node's count is at most the capacity and `size_` is the sum of the node counts,
`find_node(index)` with `0 < index < size_` returns normally (it dereferences no null
link) and returns a node of the chain, the one `(index - 1) / Size` links behind the head;
the counts of the nodes may be unequal. -/
theorem find_node_stays_in_chain (Size : Nat) (L : Lariat T) (ch : List Nat) (index : Int)
    (hS : 1 ≤ Size) (has : L.asize_ = Size) (hl : Linked L.heap L.head_ ch)
    (hocc : ∀ a ∈ ch, countAt L.heap a ≤ Size)
    (htot : L.size_ = (ch.map (countAt L.heap)).sum)
    (h0 : 0 < index) (h1 : index < L.size_) :
    ∃ x, x ∈ ch ∧ ch[((index - 1) / (Size : Int)).toNat]? = some x ∧
      find_node L index = .ok (some x) := by
  have hsum := sum_map_le_length_mul (countAt L.heap) Size ch hocc
  have hdiv : Int.tdiv (index - 1) L.asize_ = (index - 1) / (Size : Int) := by
    rw [has, Int.tdiv_eq_ediv (by omega) (by omega)]
  have hlt : (index - 1) / (Size : Int) < (ch.length : Int) :=
    Int.ediv_lt_of_lt_mul (by omega) (by omega)
  have hnn : 0 ≤ (index - 1) / (Size : Int) := Int.ediv_nonneg (by omega) (by omega)
  have hk : ((index - 1) / (Size : Int)).toNat < ch.length := by omega
  obtain ⟨x, hx, hrun⟩ := find_node_loop_get _ hl hk
  refine ⟨x, List.getElem?_mem hx, hx, ?_⟩
  have c4 : ¬ (L.asize_ = 0) := by rw [has]; omega
  rw [find_node, if_neg c4, hdiv]
  exact hrun

/-- C20, at the four-node container with counts 2, 1, 1, 1 of capacity 2 (built by five
calls of `push_front`) and index 3: the walk follows `(3 - 1) / 2 = 1` link, from the head
at address 0 to the second node of the chain, at address 3. -/
theorem find_node_stays_in_chain_witness :
    1 ≤ 2 ∧ fourNodes.asize_ = (2 : Nat) ∧
      Linked fourNodes.heap fourNodes.head_ [0, 3, 2, 1] ∧
      (∀ a ∈ [0, 3, 2, 1], countAt fourNodes.heap a ≤ (2 : Nat)) ∧
      fourNodes.size_ = (([0, 3, 2, 1] : List Nat).map (countAt fourNodes.heap)).sum ∧
      (0 : Int) < 3 ∧ (3 : Int) < fourNodes.size_ ∧
      (((3 : Int) - 1) / ((2 : Nat) : Int)).toNat = 1 ∧
      find_node fourNodes 3 = .ok (some 3) ∧
      ∃ x, x ∈ [0, 3, 2, 1] ∧
        ([0, 3, 2, 1] : List Nat)[(((3 : Int) - 1) / ((2 : Nat) : Int)).toNat]? = some x ∧
        find_node fourNodes 3 = .ok (some x) :=
  have hocc : ∀ a ∈ [0, 3, 2, 1], countAt fourNodes.heap a ≤ (2 : Nat) := by
    intro a ha
    simp only [List.mem_cons, List.mem_singleton, List.not_mem_nil, or_false] at ha
    rcases ha with rfl | rfl | rfl | rfl <;> decide
  ⟨by decide, rfl, linked_fourNodes, hocc, rfl, by decide, by decide, by decide, rfl,
    find_node_stays_in_chain 2 fourNodes [0, 3, 2, 1] 3 (by decide) rfl linked_fourNodes hocc
      rfl (by decide) (by decide)⟩

end Lariat
